import Mathlib

/-!
Verification of the configuration registry in src/pyprismatic/params.py
(the Metadata class): field registry, config state, composite accessors,
the name = value serializer, the structure-file cell loader and the
engine invoker.  The embedding is executable: Python attribute state is
an association list from attribute names to values, a file is its list
of characters, and the ambient file system is a partial map from file
names to contents.
-/

set_option maxRecDepth 10000
set_option maxHeartbeats 1600000

/-- A Python error class, as far as this module can raise one. -/
inductive PyErr where
  | attributeError
  | nameError
  | valueError
  | typeError
  | indexError
deriving DecidableEq

/-- An exact decimal number num / 10 ^ exp.  Python floats are IEEE
doubles, but the only operations params.py performs on them are
construction from decimal literals, parsing decimal text (float(s)) and
rendering to decimal text (str(f)); every double is an exact decimal
rational and repr round-trips exactly, so an exact decimal pair is a
faithful value model for those operations.  The representation is kept
non-normalized so that it can mirror the digits Python prints: the
literal 2.0 is encoded as 20 / 10 ^ 1 and renders as "2.0". -/
structure Dec where
  num : Int
  exp : Nat
deriving DecidableEq

/-- A Python float value: nan, a signed infinity, or an exact decimal. -/
inductive PyFloat where
  | nan
  | inf (neg : Bool)
  | dec (d : Dec)
deriving DecidableEq

/-- A Python runtime value, covering every value this module stores in
attributes: ints, floats, strings, bools and tuples. -/
inductive PyVal where
  | int (n : Int)
  | float (f : PyFloat)
  | str (s : String)
  | bool (b : Bool)
  | tuple (vs : List PyVal)

/-- Two decimals denote the same rational number. -/
def Dec.numEq (a b : Dec) : Prop :=
  a.num * Int.ofNat (10 ^ b.exp) = b.num * Int.ofNat (10 ^ a.exp)

/-- Python whitespace, as stripped by str.strip() and int()/float(). -/
def isWS (c : Char) : Bool :=
  c == ' ' || c == '\t' || c == '\n' || c == '\r' || c == '\x0b' || c == '\x0c'

/-- An ASCII decimal digit (codes 48-57). -/
def isDigitC (c : Char) : Bool := 48 ≤ c.toNat && c.toNat ≤ 57

/-- Numeric value of a digit character. -/
def digVal (c : Char) : Nat := c.toNat - 48

/-- ASCII lower-casing of one character (str.lower()), on codes 65-90. -/
def lowerChar (c : Char) : Char :=
  if 65 ≤ c.toNat ∧ c.toNat ≤ 90 then Char.ofNat (c.toNat + 32) else c

/-- str.lower() on a whole string. -/
def lowerStr (s : String) : String := String.mk (s.data.map lowerChar)

/-- Left-to-right numeric value of a digit string, as int() accumulates it. -/
def valNat (l : List Char) : Nat := l.foldl (fun a c => a * 10 + digVal c) 0

def allDigits (l : List Char) : Bool := l.all isDigitC

/-- Decimal digits of a natural number, most significant first (str(n)
for n ≥ 0).  The extra fuel argument makes the definition structurally
recursive and hence kernel-computable. -/
def natCharsAux : Nat → Nat → List Char
  | 0, _ => []
  | fuel + 1, n =>
    if n < 10 then [Nat.digitChar n]
    else natCharsAux fuel (n / 10) ++ [Nat.digitChar (n % 10)]

def natChars (n : Nat) : List Char := natCharsAux (n + 1) n

/-- str(n) for a Python int. -/
def intChars (n : Int) : List Char :=
  if n < 0 then '-' :: natChars n.natAbs else natChars n.natAbs

/-- Zero-pad a digit string on the left to length at least k. -/
def padLeft (k : Nat) (l : List Char) : List Char :=
  List.replicate (k - l.length) '0' ++ l

/-- Digits of the magnitude of a decimal, with the decimal point
inserted exp digits from the right and at least one digit on each side,
mirroring the digits Python str() prints for a float. -/
def decCharsCore (d : Dec) : List Char :=
  let e := max 1 d.exp
  let m := d.num.natAbs * 10 ^ (e - d.exp)
  let ds := padLeft (e + 1) (natChars m)
  ds.take (ds.length - e) ++ '.' :: ds.drop (ds.length - e)

/-- str(f) for a Python float. -/
def floatChars : PyFloat → List Char
  | .nan => "nan".data
  | .inf false => "inf".data
  | .inf true => "-inf".data
  | .dec d => (if d.num < 0 then ['-'] else []) ++ decCharsCore d

mutual

/-- str(v) for a Python value.  Tuples are rendered as a parenthesized
comma-separated list; Python additionally uses repr() on tuple elements
and a trailing comma for singletons, but no theorem below serializes a
tuple, so the simple form suffices. -/
def pyStrChars : PyVal → List Char
  | .int n => intChars n
  | .float f => floatChars f
  | .str s => s.data
  | .bool true => "True".data
  | .bool false => "False".data
  | .tuple vs => '(' :: pyStrList vs ++ [')']

def pyStrList : List PyVal → List Char
  | [] => []
  | [v] => pyStrChars v
  | v :: rest => pyStrChars v ++ ',' :: ' ' :: pyStrList rest

end

/-- str.strip(): drop leading and trailing whitespace. -/
def stripChars (l : List Char) : List Char :=
  ((l.dropWhile isWS).reverse.dropWhile isWS).reverse

/-- A nonempty digit run with its sign flag. -/
def digitsVal (d : List Char) (neg : Bool) : Option (Bool × Nat) :=
  if d ≠ [] ∧ allDigits d then some (neg, valNat d) else none

/-- Sign handling shared by int() and the float() exponent: an optional
single + or - followed by a nonempty digit run. -/
def parseSignedNat : List Char → Option (Bool × Nat)
  | [] => none
  | c :: rest =>
    if c = '-' then digitsVal rest true
    else if c = '+' then digitsVal rest false
    else digitsVal (c :: rest) false

/-- int(text) on a string: strip whitespace, optional sign, digits. -/
def parseIntC (l : List Char) : Option Int :=
  (parseSignedNat (stripChars l)).map
    (fun p => if p.1 then -(Int.ofNat p.2) else Int.ofNat p.2)

/-- Split at the first character satisfying p: (before, rest after it). -/
def splitAtFirst (p : Char → Bool) : List Char → List Char × Option (List Char)
  | [] => ([], none)
  | c :: cs =>
    if p c then ([], some cs)
    else
      let r := splitAtFirst p cs
      (c :: r.1, r.2)

/-- digits[.digits] with at least one digit in total. -/
def parseMantissa (l : List Char) : Option Dec :=
  let s := splitAtFirst (· == '.') l
  let fp := s.2.getD []
  if (s.1 ++ fp) ≠ [] ∧ allDigits s.1 ∧ allDigits fp then
    some ⟨Int.ofNat (valNat (s.1 ++ fp)), fp.length⟩
  else none

/-- Scale a decimal by 10 ^ e for a parsed exponent e. -/
def applyExp (d : Dec) (e : Int) : Dec :=
  if 0 ≤ e then ⟨d.num * Int.ofNat (10 ^ e.toNat), d.exp⟩
  else ⟨d.num, d.exp + e.natAbs⟩

/-- Unsigned body of float(): mantissa with optional e/E exponent. -/
def parseFloatBody (l : List Char) : Option Dec :=
  let s := splitAtFirst (fun c => c == 'e' || c == 'E') l
  match s.2 with
  | none => parseMantissa s.1
  | some ecs =>
    match parseMantissa s.1, parseSignedNat ecs with
    | some d, some p => some (applyExp d (if p.1 then -(Int.ofNat p.2) else Int.ofNat p.2))
    | _, _ => none

/-- Unsigned float() alternatives: nan, inf/infinity, or a number. -/
def parseFloatUnsigned (l : List Char) (neg : Bool) : Option PyFloat :=
  let low := l.map lowerChar
  if low = "nan".data then some .nan
  else if low = "inf".data ∨ low = "infinity".data then some (.inf neg)
  else (parseFloatBody l).map (fun d => .dec (if neg then ⟨-d.num, d.exp⟩ else d))

/-- Sign of float(): an optional single + or - up front. -/
def parseFloatSigned : List Char → Option PyFloat
  | [] => parseFloatUnsigned [] false
  | c :: rest =>
    if c = '-' then parseFloatUnsigned rest true
    else if c = '+' then parseFloatUnsigned rest false
    else parseFloatUnsigned (c :: rest) false

/-- float(text) on a string. -/
def parseFloatC (l : List Char) : Option PyFloat :=
  parseFloatSigned (stripChars l)

/-- Prepend a character to the first element of a line/token list. -/
def consHead (c : Char) : List (List Char) → List (List Char)
  | [] => [[c]]
  | l :: ls => (c :: l) :: ls

/-- The lines of a file as successive readline() calls return them:
each line keeps its terminating newline; a last line without a newline
is returned as-is; at end of file readline() returns "". -/
def pyLines : List Char → List (List Char)
  | [] => []
  | c :: cs => if c = '\n' then ['\n'] :: pyLines cs else consHead c (pyLines cs)

/-- Concatenation of the written chunks into the file contents. -/
def joinChars (ls : List (List Char)) : List Char := ls.foldr (· ++ ·) []

/-- Does the pattern match at the head of the list? -/
def seqAt : List Char → List Char → Bool
  | [], _ => true
  | _ :: _, [] => false
  | p :: ps, c :: cs => p == c && seqAt ps cs

/-- Does the pattern occur anywhere in the list? -/
def containsSeq (p : List Char) : List Char → Bool
  | [] => p.isEmpty
  | c :: cs => seqAt p (c :: cs) || containsSeq p cs

/-- The separator of serialized lines. -/
def sepEq : List Char := [' ', '=', ' ']

def noSep (l : List Char) : Bool := !containsSeq sepEq l

/-- Split at the first occurrence of " = ", scanning left to right. -/
def splitOnce : List Char → Option (List Char × List Char)
  | [] => none
  | c :: cs =>
    if seqAt sepEq (c :: cs) then some ([], (c :: cs).drop 3)
    else (splitOnce cs).map (fun p => (c :: p.1, p.2))

/-- field, value = line.split(" = "): the unpacking succeeds exactly
when the split yields two parts, i.e. when the separator occurs exactly
once; the field is everything before that occurrence and the value
everything after it. -/
def parseLineFields (l : List Char) : Option (List Char × List Char) :=
  match splitOnce l with
  | some p => if noSep p.2 then some p else none
  | none => none

/-- str.split() with no argument: split on whitespace runs, no empties. -/
def splitWsAux : List Char → List (List Char)
  | [] => [[]]
  | c :: cs => if isWS c then [] :: splitWsAux cs else consHead c (splitWsAux cs)

def splitWs (l : List Char) : List (List Char) :=
  (splitWsAux l).filter (fun t => !t.isEmpty)

namespace Metadata

/-- The canonical ordered field list (class attribute fields). -/
def fields : List String := [
  "interpolationFactorX",
  "interpolationFactorY",
  "filenameAtoms",
  "filenameOutput",
  "realspacePixelSizeX",
  "realspacePixelSizeY",
  "potBound",
  "numFP",
  "sliceThickness",
  "zSampling",
  "numSlices",
  "zStart",
  "cellDimX",
  "cellDimY",
  "cellDimZ",
  "tileX",
  "tileY",
  "tileZ",
  "E0",
  "alphaBeamMax",
  "numGPUs",
  "numStreamsPerGPU",
  "numThreads",
  "batchSizeTargetCPU",
  "batchSizeTargetGPU",
  "earlyCPUStopCount",
  "probeStepX",
  "probeStepY",
  "probeDefocus",
  "probeDefocus_min",
  "probeDefocus_max",
  "probeDefocus_step",
  "probeDefocus_sigma",
  "C3",
  "C5",
  "aberrations_file",
  "probeSemiangle",
  "detectorAngleStep",
  "probeXtilt",
  "probeYtilt",
  "minXtilt",
  "maxXtilt",
  "minYtilt",
  "maxYtilt",
  "minRtilt",
  "maxRtilt",
  "xTiltOffset",
  "yTiltOffset",
  "xTiltStep",
  "yTiltStep",
  "scanWindowXMin",
  "scanWindowXMax",
  "scanWindowYMin",
  "scanWindowYMax",
  "scanWindowXMin_r",
  "scanWindowXMax_r",
  "scanWindowYMin_r",
  "scanWindowYMax_r",
  "probes_file",
  "randomSeed",
  "algorithm",
  "potential3D",
  "includeThermalEffects",
  "includeOccupancy",
  "alsoDoCPUWork",
  "save2DOutput",
  "save3DOutput",
  "save4DOutput",
  "integrationAngleMin",
  "integrationAngleMax",
  "transferMode",
  "saveDPC_CoM",
  "savePotentialSlices",
  "saveSMatrix",
  "crop4DOutput",
  "crop4Damax",
  "nyquistSampling",
  "importPotential",
  "importSMatrix",
  "saveProbe",
  "saveComplexOutputWave",
  "matrixRefocus",
  "importFile",
  "importPath",
  "maxFileSize"]

/-- Fields deserialized verbatim as strings (class attribute str_fields). -/
def str_fields : List String := [
  "algorithm",
  "transferMode",
  "aberrations_file",
  "probes_file",
  "importFile",
  "importPath"]

/-- Fields deserialized with int() (class attribute int_fields). -/
def int_fields : List String := [
  "interpolationFactorX",
  "interpolationFactorY",
  "tileX",
  "tileY",
  "tileZ",
  "numFP",
  "numGPUs",
  "numStreamsPerGPU",
  "numThreads",
  "batchSizeTargetCPU",
  "batchSizeTargetGPU",
  "batchSizeCPU",
  "batchSizeGPU",
  "numSlices",
  "zSampling",
  "maxFileSize"]

/-- Fields deserialized with float() (class attribute float_fields). -/
def float_fields : List String := [
  "realspacePixelSizeX",
  "realspacePixelSizeY",
  "potBound",
  "sliceThickness",
  "E0",
  "alphaBeamMax",
  "earlyCPUStopCount",
  "probeStepX",
  "probeStepY",
  "probeDefocus",
  "probeDefocus_min",
  "probeDefocus_max",
  "probeDefocus_step",
  "probeDefocus_sigma",
  "C3",
  "C5",
  "probeSemiangle",
  "detectorAngleStep",
  "probeXtilt",
  "probeYtilt",
  "minXtilt",
  "maxXtilt",
  "minYtilt",
  "maxYtilt",
  "minRtilt",
  "maxRtilt",
  "xTiltOffset",
  "yTiltOffset",
  "xTiltStep",
  "yTiltStep",
  "scanWindowXMin",
  "scanWindowXMax",
  "scanWindowYMin",
  "scanWindowYMax",
  "scanWindowXMin_r",
  "scanWindowXMax_r",
  "scanWindowYMin_r",
  "scanWindowYMax_r",
  "integrationAngleMin",
  "integrationAngleMax",
  "zStart",
  "crop4Damax"]

end Metadata

/-- The attribute state of a Metadata instance: an association list
from attribute names to current values, first binding wins. -/
abbrev Meta := List (String × PyVal)

/-- The ambient file system: file name to file contents. -/
abbrev FS := String → Option (List Char)

/-- Read an attribute slot directly (instance dictionary lookup). -/
def lookupA : Meta → String → Option PyVal
  | [], _ => none
  | (k, v) :: rest, n => if k = n then some v else lookupA rest n

/-- Write an attribute slot directly: overwrite the first binding of
the name, or append a new binding. -/
def setRaw : Meta → String → PyVal → Meta
  | [], k, v => [(k, v)]
  | (k', v') :: rest, k, v =>
    if k' = k then (k, v) :: rest else (k', v') :: setRaw rest k v

/-- The composite properties whose setter broadcasts the assigned value
into each underlying scalar field. -/
def broadcastProps : List (String × (String × String)) := [
  ("interpolationFactor", ("interpolationFactorX", "interpolationFactorY")),
  ("realspacePixelSize", ("realspacePixelSizeX", "realspacePixelSizeY")),
  ("probeStep", ("probeStepX", "probeStepY")),
  ("probetilt", ("probeXtilt", "probeYtilt"))]

/-- The composite properties whose setter indexes the assigned value
(vals[0], vals[1], ...) into the underlying fields, in order. -/
def indexProps : List (String × List String) := [
  ("cellDim", ["cellDimX", "cellDimY", "cellDimZ"]),
  ("tile", ["tileX", "tileY", "tileZ"]),
  ("scanWindowX", ["scanWindowXMin", "scanWindowXMax"]),
  ("scanWindowY", ["scanWindowYMin", "scanWindowYMax"]),
  ("scanWindowX_r", ["scanWindowXMin_r", "scanWindowXMax_r"]),
  ("scanWindowY_r", ["scanWindowYMin_r", "scanWindowYMax_r"])]

/-- Underlying fields read, in order, by each composite getter. -/
def propReads : List (String × List String) := [
  ("interpolationFactor", ["interpolationFactorX", "interpolationFactorY"]),
  ("realspacePixelSize", ["realspacePixelSizeX", "realspacePixelSizeY"]),
  ("probeStep", ["probeStepX", "probeStepY"]),
  ("probetilt", ["probeXtilt", "probeYtilt"]),
  ("cellDim", ["cellDimX", "cellDimY", "cellDimZ"]),
  ("tile", ["tileX", "tileY", "tileZ"]),
  ("scanWindowX", ["scanWindowXMin", "scanWindowXMax"]),
  ("scanWindowY", ["scanWindowYMin", "scanWindowYMax"]),
  ("scanWindowX_r", ["scanWindowXMin_r", "scanWindowXMax_r"]),
  ("scanWindowY_r", ["scanWindowYMin_r", "scanWindowYMax_r"])]

def getTuple (m : Meta) : List String → Option (List PyVal)
  | [] => some []
  | n :: ns =>
    match lookupA m n, getTuple m ns with
    | some v, some vs => some (v :: vs)
    | _, _ => none

/-- getattr(self, name): the filenameAtoms property reads the private
slot _filenameAtoms (AttributeError when absent); each composite
property returns the tuple of its underlying fields; every other name
is a plain instance attribute. -/
def getAttr (m : Meta) (name : String) : Option PyVal :=
  if name = "filenameAtoms" then lookupA m "_filenameAtoms"
  else
    match propReads.lookup name with
    | some ns => (getTuple m ns).map .tuple
    | none => lookupA m name

/-- v[i] for a Python value: tuples index their elements, strings their
characters; other values raise. -/
def pyIndex (v : PyVal) (i : Nat) : Option PyVal :=
  match v with
  | .tuple vs => vs[i]?
  | .str s => (s.data[i]?).map (fun c => .str (String.mk [c]))
  | _ => none

/-- Sequential execution of self.f0 = vals[0]; self.f1 = vals[1]; ...
An out-of-range index raises, leaving the previous assignments in
place (the error carries the partially mutated state). -/
def indexedSet (m : Meta) : List String → PyVal → Nat → Except (PyErr × Meta) Meta
  | [], _, _ => .ok m
  | n :: ns, v, i =>
    match pyIndex v i with
    | none => .error (.indexError, m)
    | some x => indexedSet (setRaw m n x) ns v (i + 1)

/-- The float() list comprehension over the split tokens; any
non-numeric token raises ValueError before anything is assigned. -/
def parseFloatTokens : List (List Char) → Option (List PyFloat)
  | [] => some []
  | t :: ts =>
    match parseFloatC t, parseFloatTokens ts with
    | some f, some fs => some (f :: fs)
    | _, _ => none

/-- Metadata._setCellDims: open the structure file (on failure print a
diagnostic and return with the state unchanged); discard the first
line; parse the second line as whitespace-separated floats and unpack
exactly three of them into cellDimX, cellDimY, cellDimZ in that order;
a wrong token count or a malformed token raises with nothing assigned
(the list is built and unpacked before any of the three targets is
written). -/
def setCellDims (fs : FS) (m : Meta) (filename : String) :
    List String × Except (PyErr × Meta) Meta :=
  match fs filename with
  | none => (["Could not set cell dimensions from file " ++ filename], .ok m)
  | some content =>
    let second := ((pyLines content).drop 1).headD []
    match parseFloatTokens (splitWs second) with
    | none => ([], .error (.valueError, m))
    | some [a, b, c] =>
      ([], .ok (setRaw (setRaw (setRaw m "cellDimX" (.float a))
          "cellDimY" (.float b)) "cellDimZ" (.float c)))
    | some _ => ([], .error (.valueError, m))

/-- The filenameAtoms property setter: an empty string is ignored
entirely (no slot write, no file access); any other value is stored in
the private slot _filenameAtoms and then _setCellDims runs on it.  A
non-string value compares unequal to "" and is stored, after which
open() raises TypeError. -/
def filenameAtomsSet (fs : FS) (m : Meta) (v : PyVal) :
    List String × Except (PyErr × Meta) Meta :=
  match v with
  | .str fname =>
    if fname = "" then ([], .ok m)
    else setCellDims fs (setRaw m "_filenameAtoms" (.str fname)) fname
  | other => ([], .error (.typeError, setRaw m "_filenameAtoms" other))

def setBoth (m : Meta) (a b : String) (v : PyVal) : Meta :=
  setRaw (setRaw m a v) b v

/-- setattr(self, name, v): dispatches to the property setters for
filenameAtoms and the composite properties; every other name is a
plain attribute write. -/
def pySetattr (fs : FS) (m : Meta) (name : String) (v : PyVal) :
    List String × Except (PyErr × Meta) Meta :=
  if name = "filenameAtoms" then filenameAtomsSet fs m v
  else
    match broadcastProps.lookup name with
    | some p => ([], .ok (setBoth m p.1 p.2 v))
    | none =>
      match indexProps.lookup name with
      | some ns => ([], indexedSet m ns v 0)
      | none => ([], .ok (setRaw m name v))

/-- The attribute state after the default assignments of
Metadata.__init__, in source order.  Every line is a plain first write
of a fresh attribute except self.filenameAtoms = "", which goes through
the property setter and is dropped by its empty-string guard, so no
filenameAtoms slot is ever created.  The random default of randomSeed
(np.random.randint(0, 999999)) is modeled by the seed parameter. -/
def initMeta (seed : Int) : Meta := [
  ("interpolationFactorX", .int 4),
  ("interpolationFactorY", .int 4),
  ("filenameOutput", .str "output.h5"),
  ("realspacePixelSizeX", .float (.dec ⟨1, 1⟩)),
  ("realspacePixelSizeY", .float (.dec ⟨1, 1⟩)),
  ("potBound", .float (.dec ⟨30, 1⟩)),
  ("numFP", .int 1),
  ("sliceThickness", .float (.dec ⟨20, 1⟩)),
  ("zSampling", .int 16),
  ("numSlices", .int 0),
  ("zStart", .float (.dec ⟨0, 1⟩)),
  ("cellDimX", .float (.dec ⟨200, 1⟩)),
  ("cellDimY", .float (.dec ⟨200, 1⟩)),
  ("cellDimZ", .float (.dec ⟨200, 1⟩)),
  ("tileX", .int 1),
  ("tileY", .int 1),
  ("tileZ", .int 1),
  ("E0", .int 80),
  ("alphaBeamMax", .int 24),
  ("numGPUs", .int 4),
  ("numStreamsPerGPU", .int 3),
  ("numThreads", .int 12),
  ("batchSizeTargetCPU", .int 1),
  ("batchSizeTargetGPU", .int 1),
  ("batchSizeCPU", .int 1),
  ("batchSizeGPU", .int 1),
  ("earlyCPUStopCount", .int 100),
  ("probeStepX", .float (.dec ⟨25, 2⟩)),
  ("probeStepY", .float (.dec ⟨25, 2⟩)),
  ("probeDefocus", .float .nan),
  ("probeDefocus_min", .float (.dec ⟨0, 1⟩)),
  ("probeDefocus_max", .float (.dec ⟨0, 1⟩)),
  ("probeDefocus_step", .float (.dec ⟨0, 1⟩)),
  ("probeDefocus_sigma", .float (.dec ⟨0, 1⟩)),
  ("C3", .float .nan),
  ("C5", .float .nan),
  ("aberrations_file", .str ""),
  ("probeSemiangle", .float (.dec ⟨200, 1⟩)),
  ("detectorAngleStep", .float (.dec ⟨10, 1⟩)),
  ("probeXtilt", .float (.dec ⟨0, 1⟩)),
  ("probeYtilt", .float (.dec ⟨0, 1⟩)),
  ("minXtilt", .float (.dec ⟨0, 1⟩)),
  ("maxXtilt", .float (.dec ⟨0, 1⟩)),
  ("minYtilt", .float (.dec ⟨0, 1⟩)),
  ("maxYtilt", .float (.dec ⟨0, 1⟩)),
  ("minRtilt", .float (.dec ⟨0, 1⟩)),
  ("maxRtilt", .float (.dec ⟨0, 1⟩)),
  ("xTiltOffset", .float (.dec ⟨0, 1⟩)),
  ("yTiltOffset", .float (.dec ⟨0, 1⟩)),
  ("xTiltStep", .float (.dec ⟨10, 1⟩)),
  ("yTiltStep", .float (.dec ⟨10, 1⟩)),
  ("scanWindowXMin", .float (.dec ⟨0, 1⟩)),
  ("scanWindowXMax", .float (.dec ⟨99999, 5⟩)),
  ("scanWindowYMin", .float (.dec ⟨0, 1⟩)),
  ("scanWindowYMax", .float (.dec ⟨99999, 5⟩)),
  ("scanWindowXMin_r", .float (.dec ⟨0, 1⟩)),
  ("scanWindowXMax_r", .float (.dec ⟨0, 1⟩)),
  ("scanWindowYMin_r", .float (.dec ⟨0, 1⟩)),
  ("scanWindowYMax_r", .float (.dec ⟨0, 1⟩)),
  ("probes_file", .str ""),
  ("randomSeed", .int seed),
  ("algorithm", .str "prism"),
  ("potential3D", .bool true),
  ("includeThermalEffects", .bool true),
  ("includeOccupancy", .bool true),
  ("alsoDoCPUWork", .bool true),
  ("save2DOutput", .bool false),
  ("integrationAngleMin", .int 0),
  ("integrationAngleMax", .float (.dec ⟨10, 1⟩)),
  ("save3DOutput", .bool true),
  ("save4DOutput", .bool false),
  ("crop4DOutput", .bool false),
  ("crop4Damax", .float (.dec ⟨1000, 1⟩)),
  ("saveDPC_CoM", .bool false),
  ("savePotentialSlices", .bool false),
  ("saveSMatrix", .bool false),
  ("nyquistSampling", .bool false),
  ("importPotential", .bool false),
  ("importSMatrix", .bool false),
  ("saveComplexOutputWave", .bool false),
  ("saveProbe", .bool false),
  ("maxFileSize", .int 2000000000),
  ("matrixRefocus", .bool false),
  ("importFile", .str ""),
  ("importPath", .str ""),
  ("transferMode", .str "auto")]

/-- The diagnostic printed for an unregistered construction key. -/
def warnMsg (k : String) : String :=
  "Invalid metaparameter \"" ++ k ++ "\" provided"

/-- The keyword loop of Metadata.__init__: a key outside the canonical
field list only prints a diagnostic; a registered key is assigned with
setattr (and an exception from a setter aborts the loop). -/
def applyKwargs (fs : FS) (m : Meta) :
    List (String × PyVal) → List String × Except (PyErr × Meta) Meta
  | [] => ([], .ok m)
  | (k, v) :: rest =>
    if Metadata.fields.contains k then
      match pySetattr fs m k v with
      | (lg, .ok m1) =>
        let r := applyKwargs fs m1 rest
        (lg ++ r.1, r.2)
      | (lg, .error e) => (lg, .error e)
    else
      let r := applyKwargs fs m rest
      (warnMsg k :: r.1, r.2)

/-- Metadata(**kwargs): defaults, then the keyword loop. -/
def metadataInit (fs : FS) (seed : Int) (kwargs : List (String × PyVal)) :
    List String × Except (PyErr × Meta) Meta :=
  applyKwargs fs (initMeta seed) kwargs

/-- The writeParameters exclusion filter: keep a field only when its
name contains none of the substrings "save", "filename", "cellDim". -/
def includedInWrite (f : String) : Bool :=
  !containsSeq "save".data f.data &&
  !containsSeq "filename".data f.data &&
  !containsSeq "cellDim".data f.data

/-- The canonical fields that writeParameters serializes, in order. -/
def serializedFields : List String := Metadata.fields.filter includedInWrite

/-- One serialized line: outf.write(str(field) + " = " + str(value) + newline). -/
def mkLine (f : String) (v : PyVal) : List Char :=
  f.data ++ sepEq ++ pyStrChars v ++ ['\n']

def writeLinesAux (m : Meta) : List String → Except PyErr (List (List Char))
  | [] => .ok []
  | f :: rest =>
    if includedInWrite f then
      match getAttr m f with
      | none => .error .attributeError
      | some v => (writeLinesAux m rest).map (fun ls => mkLine f v :: ls)
    else writeLinesAux m rest

/-- The lines Metadata.writeParameters writes, in canonical order. -/
def writeLines (m : Meta) : Except PyErr (List (List Char)) :=
  writeLinesAux m Metadata.fields

/-- The full file contents Metadata.writeParameters produces.  (The
method also shares the missing-return open/except slip of
readParameters on an unwritable path; only the written contents matter
to the claims below.) -/
def writeParameters (m : Meta) : Except PyErr (List Char) :=
  (writeLines m).map joinChars

/-- The per-line type coercion of readParameters: str fields keep the
raw text (including its trailing newline) verbatim, int fields use
int(), float fields use float(), and every other field uses bool(),
which is true exactly when the text is nonempty. -/
def lineCoerce (field : String) (value : List Char) : Except PyErr PyVal :=
  if Metadata.str_fields.contains field then .ok (.str (String.mk value))
  else if Metadata.int_fields.contains field then
    match parseIntC value with
    | some n => .ok (.int n)
    | none => .error .valueError
  else if Metadata.float_fields.contains field then
    match parseFloatC value with
    | some f => .ok (.float f)
    | none => .error .valueError
  else .ok (.bool (!value.isEmpty))

/-- One iteration of the readParameters loop on one line. -/
def readLine (fs : FS) (m : Meta) (line : List Char) :
    List String × Except (PyErr × Meta) Meta :=
  match parseLineFields line with
  | none => ([], .error (.valueError, m))
  | some p =>
    match lineCoerce (String.mk p.1) p.2 with
    | .error e => ([], .error (e, m))
    | .ok v => pySetattr fs m (String.mk p.1) v

/-- The while-loop of readParameters over the lines of the file; the
loop stops at an empty readline() result, and an exception aborts it
with the partially updated state. -/
def processLines (fs : FS) (m : Meta) :
    List (List Char) → List String × Except (PyErr × Meta) Meta
  | [] => ([], .ok m)
  | [] :: _ => ([], .ok m)
  | line :: rest =>
    match readLine fs m line with
    | (lg, .ok m1) =>
      let r := processLines fs m1 rest
      (lg ++ r.1, r.2)
    | (lg, .error e) => (lg, .error e)

/-- Metadata.readParameters: when the file cannot be opened the except
arm prints the diagnostic but does not return (unlike _setCellDims), so
the following inf.readline() raises NameError on the unbound local with
the state untouched; otherwise the lines are processed in order. -/
def readParameters (fs : FS) (m : Meta) (filename : String) :
    List String × Except (PyErr × Meta) Meta :=
  match fs filename with
  | none => (["Could not open parameter file " ++ filename], .error (.nameError, m))
  | some content => processLines fs m (pyLines content)

/-- self.algorithm = self.algorithm.lower() (and likewise transferMode):
a missing attribute or a non-string value raises AttributeError. -/
def lowerAttr (m : Meta) (name : String) : Except (PyErr × Meta) Meta :=
  match lookupA m name with
  | some (.str s) => .ok (setRaw m name (.str (lowerStr s)))
  | some _ => .error (.attributeError, m)
  | none => .error (.attributeError, m)

def getAttrList (m : Meta) : List String → Option (List PyVal)
  | [] => some []
  | f :: rest =>
    match getAttr m f, getAttrList m rest with
    | some v, some vs => some (v :: vs)
    | _, _ => none

/-- Metadata.go up to the engine boundary: lower-case algorithm and
transferMode in place, build the flat value list over the canonical
field list in order, and hand it to the external engine
(pyprismatic.core.go(*l), modeled as returning the payload).  The
timing display after the call is presentation only. -/
def go (m : Meta) : Except (PyErr × Meta) (Meta × List PyVal) :=
  match lowerAttr m "algorithm" with
  | .error e => .error e
  | .ok m1 =>
    match lowerAttr m1 "transferMode" with
    | .error e => .error e
    | .ok m2 =>
      match getAttrList m2 Metadata.fields with
      | none => .error (.attributeError, m2)
      | some l => .ok (m2, l)

/-! ### Derived definitions used by the theorem statements -/

/-- Rescale a decimal to at least one fractional digit, the shape the
decimal renderer prints and the parser reads back. -/
def decNorm (d : Dec) : Dec :=
  ⟨d.num * Int.ofNat (10 ^ (max 1 d.exp - d.exp)), max 1 d.exp⟩

/-- Numeric agreement of two values, the sense in which int and float
fields survive a serialization round trip: ints compare exactly, an int
and a decimal compare as rationals, floats compare by kind with
decimals compared as rationals (a nan slot round-trips to nan). -/
def pyNumEq : PyVal → PyVal → Prop
  | .int a, .int b => a = b
  | .int a, .float (.dec d) => a * Int.ofNat (10 ^ d.exp) = d.num
  | .float (.dec d), .int b => d.num = b * Int.ofNat (10 ^ d.exp)
  | .float .nan, .float .nan => True
  | .float (.inf s), .float (.inf t) => s = t
  | .float (.dec a), .float (.dec b) => a.numEq b
  | _, _ => False

/-- A name with no property dispatch: not filenameAtoms and not one of
the composite properties, so setattr/getattr are plain slot accesses. -/
def plainName (f : String) : Bool :=
  !(f == "filenameAtoms") && (propReads.lookup f).isNone &&
  (broadcastProps.lookup f).isNone && (indexProps.lookup f).isNone

/-- No space and no newline in a field name, so a serialized line
splits back at the written separator. -/
def cleanName (f : String) : Bool :=
  f.data.all (fun c => !(c == ' ') && !(c == '\n'))

def noNl (l : List Char) : Bool := l.all (fun c => !(c == '\n'))

/-- A value a serialized field may hold so that its written line parses
back in the same type class: string fields must hold newline-free,
separator-free text, int fields ints, float fields ints or floats, and
the remaining (bool-coerced) fields ints, floats or bools. -/
def serialSafeB (f : String) (v : PyVal) : Bool :=
  if Metadata.str_fields.contains f then
    match v with
    | .str s => noNl s.data && noSep s.data
    | _ => false
  else if Metadata.int_fields.contains f then
    match v with
    | .int _ => true
    | _ => false
  else if Metadata.float_fields.contains f then
    match v with
    | .int _ => true
    | .float _ => true
    | _ => false
  else
    match v with
    | .int _ => true
    | .float _ => true
    | .bool _ => true
    | _ => false

/-- Every serialized field of the state is present and serialSafeB. -/
def serialOK (A : Meta) : Bool :=
  serializedFields.all (fun f =>
    match getAttr A f with
    | some v => serialSafeB f v
    | none => false)

/-- Every serialized field of the state is present and renders without
an embedded newline, so the written file splits back into the written
lines. -/
def writeNlSafe (A : Meta) : Bool :=
  serializedFields.all (fun f =>
    match getAttr A f with
    | some v => noNl (pyStrChars v)
    | none => false)

/-- The value a serialized field holds after its own written line is
read back: string fields keep the raw text with the trailing newline,
int fields re-parse exactly, float fields re-parse to the same number
(an int becomes the decimal n/10^0, a decimal is rescaled to at least
one fractional digit), and bool-coerced fields become True because the
written token is nonempty. -/
def rtValue (f : String) (v : PyVal) : PyVal :=
  if Metadata.str_fields.contains f then .str (String.mk (pyStrChars v ++ ['\n']))
  else if Metadata.int_fields.contains f then v
  else if Metadata.float_fields.contains f then
    match v with
    | .int n => .float (.dec ⟨n, 0⟩)
    | .float (.dec d) => .float (.dec (decNorm d))
    | w => w
  else .bool true

/-- The state after reading back a file written from A into B: every
included field of A, in canonical order, is re-assigned in B with its
round-tripped value. -/
def rtApply (A : Meta) (fls : List String) (B : Meta) : Meta :=
  match fls with
  | [] => B
  | f :: rest =>
    if includedInWrite f then
      match getAttr A f with
      | some v => rtApply A rest (setRaw B f (rtValue f v))
      | none => rtApply A rest B
    else rtApply A rest B

/-- Assign values to fields pairwise, in order, extras on either side
ignored (the state an indexing composite setter produces). -/
def setSeq (m : Meta) (ns : List String) (vs : List PyVal) : Meta :=
  (ns.zip vs).foldl (fun m' p => setRaw m' p.1 p.2) m

/-- The attribute names present in a state. -/
def keysOf (m : Meta) : List String := m.map Prod.fst

/-- The attribute slots a successful setattr of the given name can
create or overwrite. -/
def touchedNames (name : String) : List String :=
  if name = "filenameAtoms" then
    ["_filenameAtoms", "cellDimX", "cellDimY", "cellDimZ"]
  else
    match broadcastProps.lookup name with
    | some p => [p.1, p.2]
    | none =>
      match indexProps.lookup name with
      | some ns => ns
      | none => [name]

/-! ### Concrete scaffolding for counterexamples and witnesses -/

/-- An empty file system: every open fails. -/
def fsEmpty : FS := fun _ => none

/-- A file system holding one structure file whose second line carries
three cell dimensions. -/
def atomsFS : FS := fun n =>
  if n = "atoms.xyz" then some "comment line\n10.0 20.0 30.5\n".data else none

/-- A file system holding the given contents under the name p.txt. -/
def fsWith (content : List Char) : FS := fun n =>
  if n = "p.txt" then some content else none

/-- The written file of a state, or empty when writing raised. -/
def writtenContent (m : Meta) : List Char :=
  match writeParameters m with
  | .ok c => c
  | .error _ => []

/-- The state a read leaves behind, whether it returns or raises. -/
def readResultState (r : List String × Except (PyErr × Meta) Meta) : Meta :=
  match r.2 with
  | .ok m => m
  | .error e => e.2

/-! ### Association-list lemmas -/

theorem lookupA_setRaw_self (m : Meta) (k : String) (v : PyVal) :
    lookupA (setRaw m k v) k = some v := by
  induction m with
  | nil => simp [setRaw, lookupA]
  | cons p rest ih =>
    by_cases h : p.1 = k
    · simp [setRaw, h, lookupA]
    · simp [setRaw, h, lookupA, ih]

theorem lookupA_setRaw_ne (m : Meta) (k n : String) (v : PyVal) (h : k ≠ n) :
    lookupA (setRaw m k v) n = lookupA m n := by
  induction m with
  | nil => simp [setRaw, lookupA, h]
  | cons p rest ih =>
    by_cases hp : p.1 = k
    · simp [setRaw, hp, lookupA, h]
    · simp [setRaw, hp, lookupA, ih]

theorem setRaw_id (m : Meta) (k : String) (v : PyVal)
    (h : lookupA m k = some v) : setRaw m k v = m := by
  induction m with
  | nil => simp [lookupA] at h
  | cons p rest ih =>
    rcases p with ⟨k', v'⟩
    by_cases hp : k' = k
    · subst hp
      simp [lookupA] at h
      simp [setRaw, h]
    · simp [lookupA, hp] at h
      simp [setRaw, hp, ih h]

theorem mem_keysOf_setRaw (m : Meta) (k n : String) (v : PyVal) :
    n ∈ keysOf (setRaw m k v) ↔ n = k ∨ n ∈ keysOf m := by
  induction m with
  | nil => simp [setRaw, keysOf]
  | cons p rest ih =>
    by_cases hp : p.1 = k
    · subst hp
      simp [setRaw, keysOf]
    · simp [setRaw, hp, keysOf] at ih ⊢
      tauto

theorem lookupA_none_of_not_mem (m : Meta) (n : String)
    (h : n ∉ keysOf m) : lookupA m n = none := by
  induction m with
  | nil => simp [lookupA]
  | cons p rest ih =>
    simp [keysOf] at h
    have h1 : p.1 ≠ n := fun he => h.1 (by simp [he])
    simp [lookupA, h1, ih (by simp [keysOf]; exact fun hm => h.2 hm)]

/-! ### Digit and parse lemmas -/

theorem digitChar_spec (d : Nat) (h : d < 10) :
    isDigitC (Nat.digitChar d) = true ∧ digVal (Nat.digitChar d) = d := by
  interval_cases d <;> exact ⟨rfl, rfl⟩

theorem valNat_append_one (a : List Char) (c : Char) :
    valNat (a ++ [c]) = valNat a * 10 + digVal c := by
  simp [valNat, List.foldl_append]

theorem natCharsAux_spec :
    ∀ (fuel n : Nat), n < fuel →
      valNat (natCharsAux fuel n) = n ∧ allDigits (natCharsAux fuel n) = true ∧
        natCharsAux fuel n ≠ [] := by
  intro fuel
  induction fuel with
  | zero => intro n h; omega
  | succ f ih =>
    intro n h
    by_cases h10 : n < 10
    · refine ⟨?_, ?_, ?_⟩ <;> simp [natCharsAux, h10, valNat, allDigits,
        (digitChar_spec n h10).1, (digitChar_spec n h10).2]
    · have hdiv : n / 10 < n := Nat.div_lt_self (by omega) (by omega)
      have hf : n / 10 < f := by omega
      obtain ⟨ih1, ih2, ih3⟩ := ih (n / 10) hf
      have hmod : n % 10 < 10 := Nat.mod_lt _ (by omega)
      refine ⟨?_, ?_, ?_⟩
      · simp [natCharsAux, h10, valNat_append_one, ih1, (digitChar_spec _ hmod).2]
        omega
      · simp [natCharsAux, h10, allDigits] at ih2 ⊢
        exact ⟨ih2, (digitChar_spec _ hmod).1⟩
      · simp [natCharsAux, h10]

theorem natChars_val (n : Nat) : valNat (natChars n) = n :=
  (natCharsAux_spec (n + 1) n (by omega)).1

theorem natChars_digits (n : Nat) : allDigits (natChars n) = true :=
  (natCharsAux_spec (n + 1) n (by omega)).2.1

theorem natChars_ne_nil (n : Nat) : natChars n ≠ [] :=
  (natCharsAux_spec (n + 1) n (by omega)).2.2

theorem valNat_padLeft (k : Nat) (l : List Char) :
    valNat (padLeft k l) = valNat l := by
  have : ∀ z, valNat (List.replicate z '0' ++ l) = valNat l := by
    intro z
    induction z with
    | zero => simp
    | succ z ih =>
      simp only [List.replicate_succ, List.cons_append, valNat, List.foldl_cons] at ih ⊢
      simpa [digVal] using ih
  exact this _

theorem allDigits_padLeft (k : Nat) (l : List Char) (h : allDigits l = true) :
    allDigits (padLeft k l) = true := by
  simp only [padLeft, allDigits, List.all_append, Bool.and_eq_true]
  refine ⟨?_, by simpa [allDigits] using h⟩
  simp only [List.all_eq_true]
  intro c hc
  rw [List.eq_of_mem_replicate hc]
  rfl

theorem char_ne_of_toNat (c x : Char) (h : c.toNat ≠ x.toNat) : c ≠ x :=
  fun he => h (by rw [he])

theorem isDigitC_ne (c : Char) (h : isDigitC c = true) :
    c ≠ ' ' ∧ c ≠ '\n' ∧ c ≠ '-' ∧ c ≠ '+' ∧ c ≠ '.' ∧ c ≠ 'e' ∧ c ≠ 'E' ∧
      isWS c = false ∧ lowerChar c = c ∧ c ≠ 'n' ∧ c ≠ 'i' := by
  simp only [isDigitC, Bool.and_eq_true, decide_eq_true_eq] at h
  have t1 : (' ' : Char).toNat = 32 := rfl
  have t2 : ('\n' : Char).toNat = 10 := rfl
  have t3 : ('-' : Char).toNat = 45 := rfl
  have t4 : ('+' : Char).toNat = 43 := rfl
  have t5 : ('.' : Char).toNat = 46 := rfl
  have t6 : ('e' : Char).toNat = 101 := rfl
  have t7 : ('E' : Char).toNat = 69 := rfl
  have t8 : ('\t' : Char).toNat = 9 := rfl
  have t9 : ('\r' : Char).toNat = 13 := rfl
  have t10 : ('\x0b' : Char).toNat = 11 := rfl
  have t11 : ('\x0c' : Char).toNat = 12 := rfl
  have hbne : ∀ x : Char, c.toNat ≠ x.toNat → (c == x) = false := by
    intro x hx
    exact beq_eq_false_iff_ne.mpr (char_ne_of_toNat c x hx)
  have t12 : ('n' : Char).toNat = 110 := rfl
  have t13 : ('i' : Char).toNat = 105 := rfl
  refine ⟨char_ne_of_toNat _ _ (by omega), char_ne_of_toNat _ _ (by omega),
    char_ne_of_toNat _ _ (by omega), char_ne_of_toNat _ _ (by omega),
    char_ne_of_toNat _ _ (by omega), char_ne_of_toNat _ _ (by omega),
    char_ne_of_toNat _ _ (by omega), ?_, ?_,
    char_ne_of_toNat _ _ (by omega), char_ne_of_toNat _ _ (by omega)⟩
  · simp only [isWS, Bool.or_eq_false_iff]
    exact ⟨⟨⟨⟨⟨hbne _ (by omega), hbne _ (by omega)⟩, hbne _ (by omega)⟩,
      hbne _ (by omega)⟩, hbne _ (by omega)⟩, hbne _ (by omega)⟩
  · simp only [lowerChar]
    rw [if_neg (by omega)]

theorem mapIdOn (f : Char → Char) (l : List Char) (h : ∀ c ∈ l, f c = c) :
    l.map f = l := by
  induction l with
  | nil => rfl
  | cons a t ih =>
    simp only [List.map_cons, h a (by simp), ih (fun c hc => h c (by simp [hc]))]

theorem dropWhile_id (p : Char → Bool) (l : List Char)
    (h : ∀ c ∈ l, p c = false) : l.dropWhile p = l := by
  cases l with
  | nil => rfl
  | cons a t => simp [List.dropWhile_cons, h a (by simp)]

theorem stripChars_of_nonWS (l : List Char) (h : ∀ c ∈ l, isWS c = false) :
    stripChars l = l := by
  simp only [stripChars]
  rw [dropWhile_id _ _ h, dropWhile_id, List.reverse_reverse]
  intro c hc
  exact h c (by simpa using hc)

theorem stripChars_nonWS_nl (l : List Char) (h : ∀ c ∈ l, isWS c = false) :
    stripChars (l ++ ['\n']) = l := by
  cases l with
  | nil => rfl
  | cons a t =>
    simp only [stripChars, List.cons_append, List.dropWhile_cons,
      h a (by simp), ite_false, Bool.false_eq_true]
    have hrev : (a :: (t ++ ['\n'])).reverse = '\n' :: (t.reverse ++ [a]) := by
      simp
    rw [hrev, List.dropWhile_cons, if_pos (show isWS '\n' = true from rfl), dropWhile_id]
    · simp
    · intro c hc
      rcases List.mem_append.mp hc with hc | hc
      · exact h c (by simp [List.mem_reverse.mp hc])
      · simp only [List.mem_singleton] at hc
        exact hc ▸ h a (by simp)

theorem digitsVal_of_digits (l : List Char) (neg : Bool) (h1 : l ≠ [])
    (h2 : allDigits l = true) : digitsVal l neg = some (neg, valNat l) := by
  simp [digitsVal, h1, h2]

theorem parseSignedNat_digits (l : List Char) (h1 : l ≠ [])
    (h2 : allDigits l = true) : parseSignedNat l = some (false, valNat l) := by
  cases l with
  | nil => exact absurd rfl h1
  | cons a t =>
    have ha : isDigitC a = true := by
      simp [allDigits, List.all_eq_true] at h2
      exact h2.1
    obtain ⟨_, _, h3, h4, _⟩ := isDigitC_ne a ha
    simp only [parseSignedNat]
    rw [if_neg h3, if_neg h4]
    exact digitsVal_of_digits _ _ h1 h2

theorem natChars_nonWS (n : Nat) : ∀ c ∈ natChars n, isWS c = false := by
  intro c hc
  have := natChars_digits n
  simp only [allDigits, List.all_eq_true] at this
  exact (isDigitC_ne c (this c hc)).2.2.2.2.2.2.2.1

theorem intChars_nonWS (n : Int) : ∀ c ∈ intChars n, isWS c = false := by
  intro c hc
  simp only [intChars] at hc
  by_cases hn : n < 0
  · rw [if_pos hn] at hc
    rcases List.mem_cons.mp hc with h | h
    · subst h; rfl
    · exact natChars_nonWS _ c h
  · rw [if_neg hn] at hc
    exact natChars_nonWS _ c hc

/-- int(str(n) + newline) = n: integer fields survive the round trip. -/
theorem parseIntC_roundtrip (n : Int) :
    parseIntC (intChars n ++ ['\n']) = some n := by
  simp only [parseIntC]
  rw [stripChars_nonWS_nl _ (intChars_nonWS n)]
  by_cases hn : n < 0
  · simp only [intChars, if_pos hn]
    have hne : natChars n.natAbs ≠ [] := natChars_ne_nil _
    simp only [parseSignedNat, if_pos rfl]
    rw [digitsVal_of_digits _ _ hne (natChars_digits _)]
    rw [if_pos trivial]
    simp only [Option.map_some', natChars_val, if_pos rfl, Option.some_inj,
      Int.ofNat_eq_natCast]
    rw [Int.ofNat_natAbs_of_nonpos (le_of_lt hn), neg_neg]
    simp
  · simp only [intChars, if_neg hn]
    rw [parseSignedNat_digits _ (natChars_ne_nil _) (natChars_digits _)]
    simp only [Option.map_some', natChars_val, Option.some_inj,
      if_neg Bool.false_ne_true, Int.ofNat_eq_natCast]
    exact Int.natAbs_of_nonneg (not_lt.mp hn)

theorem cons_ne_of_head (a b : Char) (x y : List Char) (h : a ≠ b) :
    (a :: x) ≠ (b :: y) := by
  intro he
  injection he with h1 _
  exact h h1

theorem splitAtFirst_none (p : Char → Bool) (l : List Char)
    (h : ∀ c ∈ l, p c = false) : splitAtFirst p l = (l, none) := by
  induction l with
  | nil => rfl
  | cons a t ih =>
    simp only [splitAtFirst, h a (by simp)]
    rw [ih (fun c hc => h c (by simp [hc]))]
    simp

theorem splitAtFirst_exact (p : Char → Bool) (a : List Char) (x : Char)
    (b : List Char) (ha : ∀ c ∈ a, p c = false) (hx : p x = true) :
    splitAtFirst p (a ++ x :: b) = (a, some b) := by
  induction a with
  | nil => simp [splitAtFirst, hx]
  | cons c t ih =>
    simp only [List.cons_append, splitAtFirst, ha c (by simp), List.append_eq]
    rw [ih (fun d hd => ha d (by simp [hd]))]
    simp

theorem decCharsCore_spec (d : Dec) :
    ∃ A B, decCharsCore d = A ++ '.' :: B ∧ allDigits A = true ∧
      allDigits B = true ∧ A ≠ [] ∧ B.length = max 1 d.exp ∧
      valNat (A ++ B) = d.num.natAbs * 10 ^ (max 1 d.exp - d.exp) := by
  set e := max 1 d.exp with he
  set m := d.num.natAbs * 10 ^ (e - d.exp) with hm
  set ds := padLeft (e + 1) (natChars m) with hds
  have hL : e + 1 ≤ ds.length := by
    simp only [hds, padLeft, List.length_append, List.length_replicate]
    omega
  have hdig : allDigits ds = true := allDigits_padLeft _ _ (natChars_digits m)
  have hval : valNat ds = m := by
    rw [hds, valNat_padLeft, natChars_val]
  refine ⟨ds.take (ds.length - e), ds.drop (ds.length - e), rfl, ?_, ?_, ?_, ?_, ?_⟩
  · have : allDigits (ds.take (ds.length - e) ++ ds.drop (ds.length - e)) = true := by
      rw [List.take_append_drop]; exact hdig
    simp only [allDigits, List.all_append, Bool.and_eq_true] at this
    exact this.1
  · have : allDigits (ds.take (ds.length - e) ++ ds.drop (ds.length - e)) = true := by
      rw [List.take_append_drop]; exact hdig
    simp only [allDigits, List.all_append, Bool.and_eq_true] at this
    exact this.2
  · intro hnil
    have := congrArg List.length hnil
    simp only [List.length_take, List.length_nil] at this
    omega
  · simp only [List.length_drop]
    omega
  · rw [List.take_append_drop, hval]

theorem lowerChar_dot : lowerChar '.' = '.' := rfl

theorem map_lower_digits_dot (A B : List Char) (hA : allDigits A = true)
    (hB : allDigits B = true) :
    (A ++ '.' :: B).map lowerChar = A ++ '.' :: B := by
  apply mapIdOn
  intro c hc
  rcases List.mem_append.mp hc with hc | hc
  · simp only [allDigits, List.all_eq_true] at hA
    exact (isDigitC_ne c (hA c hc)).2.2.2.2.2.2.2.2.1
  · rcases List.mem_cons.mp hc with hc | hc
    · exact hc ▸ lowerChar_dot
    · simp only [allDigits, List.all_eq_true] at hB
      exact (isDigitC_ne c (hB c hc)).2.2.2.2.2.2.2.2.1

theorem digits_nonWS (l : List Char) (h : allDigits l = true) :
    ∀ c ∈ l, isWS c = false := by
  intro c hc
  simp only [allDigits, List.all_eq_true] at h
  exact (isDigitC_ne c (h c hc)).2.2.2.2.2.2.2.1

/-- parseFloatUnsigned on digits[.digits] yields the decimal with the
fraction length as exponent. -/
theorem parseFloatUnsigned_core (A B : List Char) (neg : Bool)
    (hA : allDigits A = true) (hB : allDigits B = true) (hAne : A ≠ []) :
    parseFloatUnsigned (A ++ '.' :: B) neg =
      some (.dec (if neg then ⟨-(Int.ofNat (valNat (A ++ B))), B.length⟩
        else ⟨Int.ofNat (valNat (A ++ B)), B.length⟩)) := by
  obtain ⟨a0, A', hA0⟩ := List.exists_cons_of_ne_nil hAne
  have ha0 : isDigitC a0 = true := by
    simp only [allDigits, List.all_eq_true] at hA
    exact hA a0 (by simp [hA0])
  have hlow : (A ++ '.' :: B).map lowerChar = A ++ '.' :: B :=
    map_lower_digits_dot A B hA hB
  have hconsform : A ++ '.' :: B = a0 :: (A' ++ '.' :: B) := by simp [hA0]
  simp only [parseFloatUnsigned, hlow]
  rw [if_neg ?hnan, if_neg ?hinf]
  case hnan =>
    rw [hconsform]
    exact cons_ne_of_head _ _ _ _ (isDigitC_ne a0 ha0).2.2.2.2.2.2.2.2.2.1
  case hinf =>
    rw [hconsform]
    push_neg
    constructor <;>
      exact cons_ne_of_head _ _ _ _ (isDigitC_ne a0 ha0).2.2.2.2.2.2.2.2.2.2
  have heE : splitAtFirst (fun c => c == 'e' || c == 'E') (A ++ '.' :: B) =
      (A ++ '.' :: B, none) := by
    apply splitAtFirst_none
    intro c hc
    rcases List.mem_append.mp hc with hc | hc
    · obtain ⟨_, _, _, _, _, h6, h7, _⟩ := isDigitC_ne c (by
        simp only [allDigits, List.all_eq_true] at hA; exact hA c hc)
      simp [h6, h7]
    · rcases List.mem_cons.mp hc with hc | hc
      · subst hc; rfl
      · obtain ⟨_, _, _, _, _, h6, h7, _⟩ := isDigitC_ne c (by
          simp only [allDigits, List.all_eq_true] at hB; exact hB c hc)
        simp [h6, h7]
  have hdot : splitAtFirst (fun c => c == '.') (A ++ '.' :: B) = (A, some B) := by
    apply splitAtFirst_exact
    · intro c hc
      obtain ⟨_, _, _, _, h5, _⟩ := isDigitC_ne c (by
        simp only [allDigits, List.all_eq_true] at hA; exact hA c hc)
      simp [h5]
    · rfl
  simp only [parseFloatBody, heE, parseMantissa, hdot, Option.getD_some]
  rw [if_pos ⟨by simp [hA0], hA, hB⟩]
  cases neg <;> simp

theorem parseFloatUnsigned_digits (A : List Char) (neg : Bool)
    (hA : allDigits A = true) (hAne : A ≠ []) :
    parseFloatUnsigned A neg =
      some (.dec (if neg then ⟨-(Int.ofNat (valNat A)), 0⟩
        else ⟨Int.ofNat (valNat A), 0⟩)) := by
  obtain ⟨a0, A', hA0⟩ := List.exists_cons_of_ne_nil hAne
  have ha0 : isDigitC a0 = true := by
    simp only [allDigits, List.all_eq_true] at hA
    exact hA a0 (by simp [hA0])
  have hlow : A.map lowerChar = A := by
    apply mapIdOn
    intro c hc
    simp only [allDigits, List.all_eq_true] at hA
    exact (isDigitC_ne c (hA c hc)).2.2.2.2.2.2.2.2.1
  simp only [parseFloatUnsigned, hlow]
  rw [if_neg ?hnan2, if_neg ?hinf2]
  case hnan2 =>
    rw [hA0]
    exact cons_ne_of_head _ _ _ _ (isDigitC_ne a0 ha0).2.2.2.2.2.2.2.2.2.1
  case hinf2 =>
    rw [hA0]
    push_neg
    constructor <;>
      exact cons_ne_of_head _ _ _ _ (isDigitC_ne a0 ha0).2.2.2.2.2.2.2.2.2.2
  have heE : splitAtFirst (fun c => c == 'e' || c == 'E') A = (A, none) := by
    apply splitAtFirst_none
    intro c hc
    obtain ⟨_, _, _, _, _, h6, h7, _⟩ := isDigitC_ne c (by
      simp only [allDigits, List.all_eq_true] at hA; exact hA c hc)
    simp [h6, h7]
  have hdot : splitAtFirst (fun c => c == '.') A = (A, none) := by
    apply splitAtFirst_none
    intro c hc
    obtain ⟨_, _, _, _, h5, _⟩ := isDigitC_ne c (by
      simp only [allDigits, List.all_eq_true] at hA; exact hA c hc)
    simp [h5]
  simp only [parseFloatBody, heE, parseMantissa, hdot, Option.getD_none]
  rw [List.append_nil]
  rw [if_pos ⟨hAne, hA, by rfl⟩]
  cases neg <;> simp

theorem floatChars_dec_nonWS (d : Dec) :
    ∀ c ∈ floatChars (.dec d), isWS c = false := by
  obtain ⟨A, B, hcore, hA, hB, _, _, _⟩ := decCharsCore_spec d
  intro c hc
  simp only [floatChars, hcore] at hc
  have hmem : c = '-' ∨ (c ∈ A ∨ c = '.' ∨ c ∈ B) := by
    by_cases hneg : d.num < 0
    · rw [if_pos hneg] at hc
      simpa using hc
    · rw [if_neg hneg] at hc
      simp at hc
      tauto
  rcases hmem with hc2 | hc2 | hc2 | hc2
  · subst hc2; rfl
  · exact digits_nonWS A hA c hc2
  · subst hc2; rfl
  · exact digits_nonWS B hB c hc2

theorem parseFloatSigned_minus (rest : List Char) :
    parseFloatSigned ('-' :: rest) = parseFloatUnsigned rest true := by
  simp [parseFloatSigned]

theorem parseFloatSigned_digit (c : Char) (rest : List Char)
    (h1 : c ≠ '-') (h2 : c ≠ '+') :
    parseFloatSigned (c :: rest) = parseFloatUnsigned (c :: rest) false := by
  simp [parseFloatSigned, h1, h2]

/-- float(str(f) + newline) for a decimal float: the value reads back
rescaled to at least one fractional digit. -/
theorem parseFloat_dec_rt (d : Dec) :
    parseFloatC (floatChars (.dec d) ++ ['\n']) = some (.dec (decNorm d)) := by
  obtain ⟨A, B, hcore, hA, hB, hAne, hBlen, hval⟩ := decCharsCore_spec d
  simp only [parseFloatC]
  rw [stripChars_nonWS_nl _ (floatChars_dec_nonWS d)]
  by_cases hneg : d.num < 0
  · have hfc : floatChars (.dec d) = '-' :: (A ++ '.' :: B) := by
      simp [floatChars, if_pos hneg, hcore]
    rw [hfc, parseFloatSigned_minus,
      parseFloatUnsigned_core A B true hA hB hAne]
    simp only [eq_self_iff_true, if_true, Option.some_inj, PyFloat.dec.injEq,
      decNorm, Dec.mk.injEq]
    refine ⟨?_, hBlen⟩
    rw [hval, Int.ofNat_eq_natCast, Int.ofNat_eq_natCast, Nat.cast_mul]
    have h2 : (↑d.num.natAbs : ℤ) = -d.num := by omega
    rw [h2]
    ring
  · obtain ⟨a0, A', hA0⟩ := List.exists_cons_of_ne_nil hAne
    have ha0 : isDigitC a0 = true := by
      simp only [allDigits, List.all_eq_true] at hA
      exact hA a0 (by simp [hA0])
    have hfc : floatChars (.dec d) = a0 :: (A' ++ '.' :: B) := by
      simp [floatChars, if_neg hneg, hcore, hA0]
    have hback : a0 :: (A' ++ '.' :: B) = A ++ '.' :: B := by simp [hA0]
    rw [hfc, parseFloatSigned_digit a0 _ (isDigitC_ne a0 ha0).2.2.1
      (isDigitC_ne a0 ha0).2.2.2.1, hback,
      parseFloatUnsigned_core A B false hA hB hAne]
    simp only [Bool.false_eq_true, if_false, Option.some_inj,
      PyFloat.dec.injEq, decNorm, Dec.mk.injEq]
    refine ⟨?_, hBlen⟩
    rw [hval, Int.ofNat_eq_natCast, Int.ofNat_eq_natCast, Nat.cast_mul]
    have h2 : (↑d.num.natAbs : ℤ) = d.num := by omega
    rw [h2]

/-- float(str(n) + newline) for an int-valued token parses to n / 10^0. -/
theorem parseFloat_int_rt (n : Int) :
    parseFloatC (intChars n ++ ['\n']) = some (.dec ⟨n, 0⟩) := by
  simp only [parseFloatC]
  rw [stripChars_nonWS_nl _ (intChars_nonWS n)]
  by_cases hneg : n < 0
  · have hfc : intChars n = '-' :: natChars n.natAbs := by
      simp [intChars, if_pos hneg]
    rw [hfc, parseFloatSigned_minus,
      parseFloatUnsigned_digits _ true (natChars_digits _) (natChars_ne_nil _)]
    simp only [eq_self_iff_true, if_true, Option.some_inj, PyFloat.dec.injEq,
      Dec.mk.injEq, natChars_val, and_true]
    rw [Int.ofNat_eq_natCast]
    omega
  · have hfc : intChars n = natChars n.natAbs := by
      simp [intChars, if_neg hneg]
    obtain ⟨a0, A', hA0⟩ := List.exists_cons_of_ne_nil (natChars_ne_nil n.natAbs)
    have ha0 : isDigitC a0 = true := by
      have := natChars_digits n.natAbs
      simp only [allDigits, List.all_eq_true] at this
      exact this a0 (by simp [hA0])
    rw [hfc, hA0, parseFloatSigned_digit a0 _ (isDigitC_ne a0 ha0).2.2.1
      (isDigitC_ne a0 ha0).2.2.2.1, ← hA0,
      parseFloatUnsigned_digits _ false (natChars_digits _) (natChars_ne_nil _)]
    simp only [Bool.false_eq_true, if_false, Option.some_inj,
      PyFloat.dec.injEq, Dec.mk.injEq, natChars_val, and_true]
    rw [Int.ofNat_eq_natCast]
    omega

theorem parseFloat_nan_rt :
    parseFloatC (floatChars .nan ++ ['\n']) = some .nan := rfl

theorem parseFloat_inf_rt (b : Bool) :
    parseFloatC (floatChars (.inf b) ++ ['\n']) = some (.inf b) := by
  cases b <;> rfl

theorem isWS_false_ne (c : Char) (h : isWS c = false) : c ≠ ' ' ∧ c ≠ '\n' := by
  constructor <;> intro he <;> subst he <;> simp [isWS] at h

theorem seqAt_append_last (p : List Char) (x : Char) (hx : ∀ c ∈ p, c ≠ x) :
    ∀ l, seqAt p (l ++ [x]) = seqAt p l := by
  induction p with
  | nil => intro l; rfl
  | cons q ps ih =>
    intro l
    cases l with
    | nil =>
      simp only [List.nil_append, seqAt]
      have : (q == x) = false := beq_eq_false_iff_ne.mpr (hx q (by simp))
      cases ps with
      | nil => simp [this]
      | cons r rs => simp [this]
    | cons c cs =>
      simp only [List.cons_append, seqAt, List.append_eq]
      rw [ih (fun d hd => hx d (by simp [hd])) cs]

theorem containsSeq_sep_append_nl (l : List Char) :
    containsSeq sepEq (l ++ ['\n']) = containsSeq sepEq l := by
  have hx : ∀ c ∈ sepEq, c ≠ '\n' := by decide
  induction l with
  | nil => rfl
  | cons c cs ih =>
    simp only [List.cons_append, containsSeq, List.append_eq]
    rw [show c :: (cs ++ ['\n']) = (c :: cs) ++ ['\n'] from rfl,
      seqAt_append_last sepEq '\n' hx (c :: cs), ih]

theorem noSep_append_nl (l : List Char) (h : noSep l = true) :
    noSep (l ++ ['\n']) = true := by
  simpa [noSep, containsSeq_sep_append_nl] using h

theorem noSep_of_no_space (l : List Char) (h : ∀ c ∈ l, c ≠ ' ') :
    noSep l = true := by
  simp only [noSep, Bool.not_eq_true']
  induction l with
  | nil => rfl
  | cons c cs ih =>
    simp only [containsSeq, Bool.or_eq_false_iff]
    constructor
    · simp only [sepEq, seqAt]
      have : (' ' == c) = false :=
        beq_eq_false_iff_ne.mpr (fun he => (h c (by simp)) he.symm)
      simp [this]
    · exact ih (fun d hd => h d (by simp [hd]))

theorem splitOnce_exact (a b : List Char) (ha : ∀ c ∈ a, c ≠ ' ') :
    splitOnce (a ++ ' ' :: '=' :: ' ' :: b) = some (a, b) := by
  induction a with
  | nil => simp [splitOnce, seqAt, sepEq]
  | cons c t ih =>
    simp only [List.cons_append, splitOnce, List.append_eq]
    have hc : (' ' == c) = false :=
      beq_eq_false_iff_ne.mpr (fun he => (ha c (by simp)) he.symm)
    rw [if_neg (by simp [seqAt, sepEq, hc])]
    rw [ih (fun d hd => ha d (by simp [hd]))]
    simp

theorem parseLineFields_line (f : String) (w : List Char)
    (hf : ∀ c ∈ f.data, c ≠ ' ') :
    parseLineFields (f.data ++ sepEq ++ w) =
      if noSep w then some (f.data, w) else none := by
  have hshape : f.data ++ sepEq ++ w = f.data ++ ' ' :: '=' :: ' ' :: w := by
    simp [sepEq]
  rw [hshape]
  simp only [parseLineFields, splitOnce_exact f.data w hf]

theorem pyLines_line (core rest : List Char) (h : '\n' ∉ core) :
    pyLines (core ++ '\n' :: rest) = (core ++ ['\n']) :: pyLines rest := by
  induction core with
  | nil => simp [pyLines]
  | cons c t ih =>
    have hc : ¬(c = '\n') := fun he => h (by simp [he])
    simp only [List.cons_append, pyLines, if_neg hc, List.append_eq]
    rw [ih (fun hm => h (by simp [hm]))]
    rfl

theorem floatChars_nonWS (f : PyFloat) : ∀ c ∈ floatChars f, isWS c = false := by
  cases f with
  | nan => decide
  | inf b => cases b <;> decide
  | dec d => exact floatChars_dec_nonWS d

theorem boolChars_nonWS (b : Bool) :
    ∀ c ∈ pyStrChars (.bool b), isWS c = false := by
  cases b <;> decide

/-- Values in the int/float/bool type classes render without spaces or
newlines; string values contribute their hypothesis directly. -/
theorem serialSafe_value_chars (f : String) (v : PyVal)
    (h : serialSafeB f v = true) :
    noSep (pyStrChars v ++ ['\n']) = true ∧ noNl (pyStrChars v) = true := by
  have hgen : (∀ c ∈ pyStrChars v, isWS c = false) →
      noSep (pyStrChars v ++ ['\n']) = true ∧ noNl (pyStrChars v) = true := by
    intro hnw
    constructor
    · apply noSep_of_no_space
      intro c hc
      rcases List.mem_append.mp hc with hc | hc
      · exact (isWS_false_ne c (hnw c hc)).1
      · simp only [List.mem_singleton] at hc
        subst hc; decide
    · simp only [noNl, List.all_eq_true]
      intro c hc
      simp [(isWS_false_ne c (hnw c hc)).2]
  simp only [serialSafeB] at h
  by_cases h1 : Metadata.str_fields.contains f
  · rw [if_pos h1] at h
    cases v with
    | str s =>
      simp only [Bool.and_eq_true] at h
      refine ⟨?_, h.1⟩
      have := noSep_append_nl s.data h.2
      simpa [pyStrChars] using this
    | int n => simp at h
    | float g => simp at h
    | bool b => simp at h
    | tuple vs => simp at h
  · rw [if_neg h1] at h
    by_cases h2 : Metadata.int_fields.contains f
    · rw [if_pos h2] at h
      cases v with
      | int n => exact hgen (intChars_nonWS n)
      | str s => simp at h
      | float g => simp at h
      | bool b => simp at h
      | tuple vs => simp at h
    · rw [if_neg h2] at h
      by_cases h3 : Metadata.float_fields.contains f
      · rw [if_pos h3] at h
        cases v with
        | int n => exact hgen (intChars_nonWS n)
        | float g => exact hgen (floatChars_nonWS g)
        | str s => simp at h
        | bool b => simp at h
        | tuple vs => simp at h
      · rw [if_neg h3] at h
        cases v with
        | int n => exact hgen (intChars_nonWS n)
        | float g => exact hgen (floatChars_nonWS g)
        | bool b => exact hgen (boolChars_nonWS b)
        | str s => simp at h
        | tuple vs => simp at h

theorem plainName_parts (f : String) (h : plainName f = true) :
    f ≠ "filenameAtoms" ∧ propReads.lookup f = none ∧
      broadcastProps.lookup f = none ∧ indexProps.lookup f = none := by
  simp only [plainName, Bool.and_eq_true, Bool.not_eq_true', beq_eq_false_iff_ne,
    Option.isNone_iff_eq_none] at h
  tauto

theorem pySetattr_plain (fs : FS) (m : Meta) (f : String) (v : PyVal)
    (h : plainName f = true) :
    pySetattr fs m f v = ([], .ok (setRaw m f v)) := by
  obtain ⟨h1, _, h3, h4⟩ := plainName_parts f h
  simp [pySetattr, h1, h3, h4]

theorem getAttr_plain (m : Meta) (f : String) (h : plainName f = true) :
    getAttr m f = lookupA m f := by
  obtain ⟨h1, h2, _, _⟩ := plainName_parts f h
  simp [getAttr, h1, h2]

theorem lineCoerce_rt (f : String) (v : PyVal) (h : serialSafeB f v = true) :
    lineCoerce f (pyStrChars v ++ ['\n']) = .ok (rtValue f v) := by
  simp only [serialSafeB] at h
  by_cases h1 : Metadata.str_fields.contains f
  · rw [if_pos h1] at h
    have hm1 : f ∈ Metadata.str_fields := by simpa using h1
    simp [lineCoerce, rtValue, hm1]
  · rw [if_neg h1] at h
    have hm1 : f ∉ Metadata.str_fields := by simpa using h1
    by_cases h2 : Metadata.int_fields.contains f
    · rw [if_pos h2] at h
      have hm2 : f ∈ Metadata.int_fields := by simpa using h2
      cases v with
      | int n =>
        simp only [lineCoerce, rtValue, hm1, hm2, if_false, if_true,
          pyStrChars]
        rw [parseIntC_roundtrip n]
        simp [hm1, hm2]
      | str s => simp at h
      | float g => simp at h
      | bool b => simp at h
      | tuple vs => simp at h
    · rw [if_neg h2] at h
      have hm2 : f ∉ Metadata.int_fields := by simpa using h2
      by_cases h3 : Metadata.float_fields.contains f
      · rw [if_pos h3] at h
        have hm3 : f ∈ Metadata.float_fields := by simpa using h3
        cases v with
        | int n =>
          simp only [lineCoerce, rtValue, hm1, hm2, hm3, if_false, if_true,
            pyStrChars]
          rw [parseFloat_int_rt n]
          simp [hm1, hm2, hm3]
        | float g =>
          cases g with
          | nan =>
            simp only [lineCoerce, rtValue, hm1, hm2, hm3, if_false, if_true,
              pyStrChars]
            rw [parseFloat_nan_rt]
            simp [hm1, hm2, hm3]
          | inf b =>
            simp only [lineCoerce, rtValue, hm1, hm2, hm3, if_false, if_true,
              pyStrChars]
            rw [parseFloat_inf_rt b]
            simp [hm1, hm2, hm3]
          | dec d =>
            simp only [lineCoerce, rtValue, hm1, hm2, hm3, if_false, if_true,
              pyStrChars]
            rw [parseFloat_dec_rt d]
            simp [hm1, hm2, hm3]
        | str s => simp at h
        | bool b => simp at h
        | tuple vs => simp at h
      · rw [if_neg h3] at h
        have hm3 : f ∉ Metadata.float_fields := by simpa using h3
        have hne : (pyStrChars v ++ ['\n']).isEmpty = false := by
          simp [List.isEmpty_iff]
        simp [lineCoerce, rtValue, hm1, hm2, hm3, hne]

theorem string_mk_data (f : String) : String.mk f.data = f := rfl

theorem readLine_mkLine (fs : FS) (B : Meta) (f : String) (v : PyVal)
    (hf : cleanName f = true) (hp : plainName f = true)
    (hs : serialSafeB f v = true) :
    readLine fs B (mkLine f v) = ([], .ok (setRaw B f (rtValue f v))) := by
  have hfsp : ∀ c ∈ f.data, c ≠ ' ' := by
    simp only [cleanName, List.all_eq_true, Bool.and_eq_true,
      Bool.not_eq_true', beq_eq_false_iff_ne] at hf
    exact fun c hc => (hf c hc).1
  have hshape : mkLine f v = f.data ++ sepEq ++ (pyStrChars v ++ ['\n']) := by
    simp [mkLine]
  obtain ⟨hw, _⟩ := serialSafe_value_chars f v hs
  simp only [readLine, hshape, parseLineFields_line f _ hfsp, hw, if_true,
    string_mk_data, lineCoerce_rt f v hs]
  exact pySetattr_plain fs B f (rtValue f v) hp

theorem mkLine_core (f : String) (v : PyVal) :
    mkLine f v = ((f.data ++ sepEq) ++ pyStrChars v) ++ ['\n'] := by
  simp [mkLine]

theorem mkLine_no_nl_core (f : String) (v : PyVal) (hf : cleanName f = true)
    (hv : noNl (pyStrChars v) = true) :
    '\n' ∉ (f.data ++ sepEq) ++ pyStrChars v := by
  intro hmem
  rcases List.mem_append.mp hmem with hmem | hmem
  · rcases List.mem_append.mp hmem with hmem | hmem
    · simp only [cleanName, List.all_eq_true, Bool.and_eq_true,
        Bool.not_eq_true', beq_eq_false_iff_ne] at hf
      exact (hf _ hmem).2 rfl
    · simp [sepEq] at hmem
  · simp only [noNl, List.all_eq_true] at hv
    have := hv _ hmem
    simp at this

theorem mkLine_ne_nil (f : String) (v : PyVal) : mkLine f v ≠ [] := by
  rw [mkLine_core]
  simp

theorem processLines_writeLines (fs : FS) (A : Meta) :
    ∀ (fls : List String) (B : Meta) (ls : List (List Char)),
      writeLinesAux A fls = .ok ls →
      (∀ f ∈ fls, includedInWrite f = true →
        plainName f = true ∧ cleanName f = true ∧
        ∃ v, getAttr A f = some v ∧ serialSafeB f v = true) →
      processLines fs B (pyLines (joinChars ls)) = ([], .ok (rtApply A fls B)) := by
  intro fls
  induction fls with
  | nil =>
    intro B ls hw _
    simp only [writeLinesAux, Except.ok.injEq] at hw
    subst hw
    rfl
  | cons f rest ih =>
    intro B ls hw hh
    by_cases hinc : includedInWrite f = true
    · obtain ⟨hp, hc, v, hv, hs⟩ := hh f (by simp) hinc
      simp only [writeLinesAux, hinc, if_true, hv] at hw
      cases hrec : writeLinesAux A rest with
      | error e => rw [hrec] at hw; simp [Except.map] at hw
      | ok ls' =>
        rw [hrec] at hw
        simp only [Except.map, Except.ok.injEq] at hw
        subst hw
        have hjoin : joinChars (mkLine f v :: ls') = mkLine f v ++ joinChars ls' := rfl
        rw [hjoin, mkLine_core]
        have hnl : '\n' ∉ (f.data ++ sepEq) ++ pyStrChars v :=
          mkLine_no_nl_core f v hc (serialSafe_value_chars f v hs).2
        have hshape : (((f.data ++ sepEq) ++ pyStrChars v) ++ ['\n']) ++ joinChars ls' =
            ((f.data ++ sepEq) ++ pyStrChars v) ++ '\n' :: joinChars ls' := by
          simp
        rw [hshape, pyLines_line _ _ hnl]
        have hline : ((f.data ++ sepEq) ++ pyStrChars v) ++ ['\n'] = mkLine f v := by
          simp [mkLine]
        rw [hline]
        obtain ⟨c, t, hct⟩ := List.exists_cons_of_ne_nil (mkLine_ne_nil f v)
        rw [hct]
        simp only [processLines]
        rw [← hct, readLine_mkLine fs B f v hc hp hs]
        dsimp only
        rw [ih (setRaw B f (rtValue f v)) ls' hrec
          (fun g hg hgi => hh g (by simp [hg]) hgi)]
        simp only [rtApply, hinc, if_true, hv, List.nil_append]
    · have hinc2 : includedInWrite f = false := by simpa using hinc
      simp only [writeLinesAux, hinc2, Bool.false_eq_true, if_false] at hw
      have := ih B ls hw (fun g hg hgi => hh g (by simp [hg]) hgi)
      rw [this]
      simp only [rtApply, hinc2, Bool.false_eq_true, if_false]

theorem rtApply_lookup_notinc (A : Meta) (fls : List String) (B : Meta)
    (n : String) (h : includedInWrite n = false) :
    lookupA (rtApply A fls B) n = lookupA B n := by
  induction fls generalizing B with
  | nil => rfl
  | cons f rest ih =>
    by_cases hinc : includedInWrite f = true
    · simp only [rtApply, hinc, if_true]
      cases hv : getAttr A f with
      | none => exact ih B
      | some v =>
        rw [ih (setRaw B f (rtValue f v)), lookupA_setRaw_ne]
        intro he
        subst he
        rw [h] at hinc
        exact Bool.false_ne_true hinc
    · simp only [rtApply, hinc, if_false]
      have hinc2 : includedInWrite f = false := by simpa using hinc
      simp only [hinc2, Bool.false_eq_true, if_false]
      exact ih B

theorem rtApply_lookup_notmem (A : Meta) :
    ∀ (fls : List String) (B : Meta) (n : String), n ∉ fls →
      lookupA (rtApply A fls B) n = lookupA B n := by
  intro fls
  induction fls with
  | nil => intro B n _; rfl
  | cons f rest ih =>
    intro B n h
    have hfn : f ≠ n := fun he => h (by simp [he])
    have hrest : n ∉ rest := fun hm => h (by simp [hm])
    by_cases hinc : includedInWrite f = true
    · simp only [rtApply, hinc, if_true]
      cases hv : getAttr A f with
      | none => exact ih B n hrest
      | some v =>
        rw [ih (setRaw B f (rtValue f v)) n hrest, lookupA_setRaw_ne _ _ _ _ hfn]
    · have hinc2 : includedInWrite f = false := by simpa using hinc
      simp only [rtApply, hinc2, Bool.false_eq_true, if_false]
      exact ih B n hrest

theorem rtApply_lookup_mem (A : Meta) :
    ∀ (fls : List String) (B : Meta) (f : String), fls.Nodup → f ∈ fls →
      includedInWrite f = true → ∀ v : PyVal, getAttr A f = some v →
      lookupA (rtApply A fls B) f = some (rtValue f v) := by
  intro fls
  induction fls with
  | nil => intro B f _ hmem; simp at hmem
  | cons g rest ih =>
    intro B f hnd hmem hinc v hv
    rcases List.mem_cons.mp hmem with he | hm
    · subst he
      have hnotin : f ∉ rest := (List.nodup_cons.mp hnd).1
      simp only [rtApply, hinc, if_true, hv]
      rw [rtApply_lookup_notmem A rest _ f hnotin, lookupA_setRaw_self]
    · have hnd2 : rest.Nodup := (List.nodup_cons.mp hnd).2
      by_cases hginc : includedInWrite g = true
      · simp only [rtApply, hginc, if_true]
        cases hgv : getAttr A g with
        | none => exact ih B f hnd2 hm hinc v hv
        | some w => exact ih (setRaw B g (rtValue g w)) f hnd2 hm hinc v hv
      · have hginc2 : includedInWrite g = false := by simpa using hginc
        simp only [rtApply, hginc2, Bool.false_eq_true, if_false]
        exact ih B f hnd2 hm hinc v hv

theorem writeLinesAux_ok (A : Meta) :
    ∀ fls : List String,
      (∀ f ∈ fls, includedInWrite f = true → ∃ v, getAttr A f = some v) →
      ∃ ls, writeLinesAux A fls = .ok ls := by
  intro fls
  induction fls with
  | nil => exact fun _ => ⟨[], rfl⟩
  | cons f rest ih =>
    intro hh
    obtain ⟨ls', hls'⟩ := ih (fun g hg hgi => hh g (by simp [hg]) hgi)
    by_cases hinc : includedInWrite f = true
    · obtain ⟨v, hv⟩ := hh f (by simp) hinc
      exact ⟨mkLine f v :: ls', by
        simp only [writeLinesAux, hinc, if_true, hv, hls', Except.map]⟩
    · have hinc2 : includedInWrite f = false := by simpa using hinc
      exact ⟨ls', by simp only [writeLinesAux, hinc2, Bool.false_eq_true, if_false, hls']⟩

theorem serialOK_spec (A : Meta) (h : serialOK A = true) :
    ∀ f ∈ serializedFields, ∃ v, getAttr A f = some v ∧ serialSafeB f v = true := by
  simp only [serialOK, List.all_eq_true] at h
  intro f hf
  have h2 := h f hf
  cases hv : getAttr A f with
  | none => rw [hv] at h2; simp at h2
  | some v => rw [hv] at h2; exact ⟨v, rfl, h2⟩

theorem serialized_static :
    ∀ f ∈ serializedFields, plainName f = true ∧ cleanName f = true := by
  decide

theorem serializedFields_nodup : serializedFields.Nodup := by decide

theorem fields_nodup : Metadata.fields.Nodup := by decide

/-- The central serializer round trip: writing state A succeeds and
reading the written file into state B reassigns exactly the included
canonical fields with their round-tripped values. -/
theorem write_read_ok (fs : FS) (A B : Meta) (h : serialOK A = true) :
    ∃ content, writeParameters A = .ok content ∧
      processLines fs B (pyLines content) = ([], .ok (rtApply A Metadata.fields B)) := by
  have hyp : ∀ f ∈ Metadata.fields, includedInWrite f = true →
      plainName f = true ∧ cleanName f = true ∧
      ∃ v, getAttr A f = some v ∧ serialSafeB f v = true := by
    intro f hf hinc
    have hfs : f ∈ serializedFields := List.mem_filter.mpr ⟨hf, hinc⟩
    exact ⟨(serialized_static f hfs).1, (serialized_static f hfs).2,
      serialOK_spec A h f hfs⟩
  obtain ⟨ls, hls⟩ := writeLinesAux_ok A Metadata.fields
    (fun f hf hinc => ((hyp f hf hinc).2.2).imp (fun v hv => hv.1))
  refine ⟨joinChars ls, ?_, ?_⟩
  · simp only [writeParameters, writeLines, hls, Except.map]
  · exact processLines_writeLines fs A Metadata.fields B ls hls hyp

theorem setSeq_nil (m : Meta) (vs : List PyVal) : setSeq m [] vs = m := rfl

theorem setSeq_cons (m : Meta) (n : String) (ns : List String) (x : PyVal)
    (vs : List PyVal) : setSeq m (n :: ns) (x :: vs) = setSeq (setRaw m n x) ns vs := rfl

theorem setSeq_nil_right (m : Meta) (ns : List String) : setSeq m ns [] = m := by
  cases ns <;> rfl

theorem zip_take_len (ns : List String) (vs : List PyVal) :
    ns.zip vs = (ns.take vs.length).zip vs := by
  induction ns generalizing vs with
  | nil => simp
  | cons n ns ih =>
    cases vs with
    | nil => simp
    | cons v vs => simp [List.zip_cons_cons, ih vs]

theorem indexedSet_spec :
    ∀ (ns : List String) (m : Meta) (full : List PyVal) (i : Nat),
      indexedSet m ns (.tuple full) i =
        if ns.length ≤ full.length - i then .ok (setSeq m ns (full.drop i))
        else .error (.indexError, setSeq m (ns.take (full.length - i)) (full.drop i)) := by
  intro ns
  induction ns with
  | nil =>
    intro m full i
    rw [if_pos (by simp)]
    rfl
  | cons n ns ih =>
    intro m full i
    by_cases hi : i < full.length
    · have hidx : full[i]? = some full[i] := List.getElem?_eq_getElem hi
      have hdrop : full.drop i = full[i] :: full.drop (i + 1) :=
        List.drop_eq_getElem_cons hi
      simp only [indexedSet, pyIndex, hidx]
      rw [ih (setRaw m n full[i]) full (i + 1)]
      simp only [List.length_cons]
      by_cases hlen : ns.length + 1 ≤ full.length - i
      · rw [if_pos (by omega), if_pos (by omega), hdrop, setSeq_cons]
      · rw [if_neg (by omega), if_neg (by omega), hdrop]
        have htake : (n :: ns).take (full.length - i) =
            n :: ns.take (full.length - (i + 1)) := by
          have : full.length - i = (full.length - (i + 1)) + 1 := by omega
          rw [this, List.take_succ_cons]
        rw [htake, setSeq_cons]
    · have hidx : full[i]? = none := by
        rw [List.getElem?_eq_none]
        omega
      simp only [indexedSet, pyIndex, hidx]
      rw [if_neg (by simp only [List.length_cons]; omega)]
      have h0 : full.length - i = 0 := by omega
      have hdrop : full.drop i = [] := List.drop_eq_nil_of_le (by omega)
      rw [h0, hdrop, List.take_zero, setSeq_nil]

theorem indexProps_dispatch :
    ∀ pr ∈ indexProps, pr.1 ≠ "filenameAtoms" ∧
      broadcastProps.lookup pr.1 = none ∧
      indexProps.lookup pr.1 = some pr.2 ∧
      propReads.lookup pr.1 = some pr.2 := by
  decide

/-- C10: for each tuple-indexed composite setter, assigning a sequence
with at least the declared arity succeeds using the leading components
positionally (extras silently ignored); assigning a shorter sequence
raises IndexError after the leading underlying fields have already been
assigned, leaving the state partially mutated (setSeq pairs fields with
values and drops the unmatched tail on either side). -/
theorem C10_indexed_setter_arity (p : String) (ns : List String) (fs : FS)
    (m : Meta) (vs : List PyVal) (hmem : (p, ns) ∈ indexProps) :
    (ns.length ≤ vs.length →
      pySetattr fs m p (.tuple vs) = ([], .ok (setSeq m ns vs))) ∧
    (vs.length < ns.length →
      pySetattr fs m p (.tuple vs) =
        ([], .error (.indexError, setSeq m ns vs))) := by
  obtain ⟨h1, h2, h3, _⟩ := indexProps_dispatch (p, ns) hmem
  have hset : pySetattr fs m p (.tuple vs) = ([], indexedSet m ns (.tuple vs) 0) := by
    simp [pySetattr, h1, h2, h3]
  constructor
  · intro hlen
    rw [hset, indexedSet_spec ns m vs 0, if_pos (by omega)]
    simp
  · intro hlen
    rw [hset, indexedSet_spec ns m vs 0, if_neg (by omega)]
    simp only [Nat.sub_zero, List.drop_zero, setSeq]
    rw [← zip_take_len]

/-- C10 witness: tile with two components raises IndexError with tileX
and tileY already reassigned; four components succeed ignoring the
fourth. -/
theorem C10_witness :
    pySetattr fsEmpty (initMeta 0) "tile" (.tuple [.int 2, .int 3]) =
      ([], .error (.indexError,
        setSeq (initMeta 0) ["tileX", "tileY", "tileZ"] [.int 2, .int 3])) ∧
    pySetattr fsEmpty (initMeta 0) "tile" (.tuple [.int 2, .int 3, .int 1, .int 9]) =
      ([], .ok (setSeq (initMeta 0) ["tileX", "tileY", "tileZ"]
        [.int 2, .int 3, .int 1, .int 9])) :=
  ⟨(C10_indexed_setter_arity "tile" ["tileX", "tileY", "tileZ"] fsEmpty
      (initMeta 0) [.int 2, .int 3] (by decide)).2 (by decide),
   (C10_indexed_setter_arity "tile" ["tileX", "tileY", "tileZ"] fsEmpty
      (initMeta 0) [.int 2, .int 3, .int 1, .int 9] (by decide)).1 (by decide)⟩

theorem getTuple_length (m : Meta) :
    ∀ (ns : List String) (vs : List PyVal), getTuple m ns = some vs →
      vs.length = ns.length := by
  intro ns
  induction ns with
  | nil =>
    intro vs h
    simp only [getTuple, Option.some_inj] at h
    subst h
    rfl
  | cons n ns ih =>
    intro vs h
    simp only [getTuple] at h
    cases h1 : lookupA m n with
    | none => rw [h1] at h; simp at h
    | some v =>
      rw [h1] at h
      cases h2 : getTuple m ns with
      | none => rw [h2] at h; simp at h
      | some vs' =>
        rw [h2] at h
        simp only [Option.some_inj] at h
        subst h
        simp [ih vs' h2]

theorem setSeq_id_of_getTuple (m : Meta) :
    ∀ (ns : List String) (vs : List PyVal), getTuple m ns = some vs →
      setSeq m ns vs = m := by
  intro ns
  induction ns with
  | nil => intro vs _; exact setSeq_nil m vs
  | cons n ns ih =>
    intro vs h
    simp only [getTuple] at h
    cases h1 : lookupA m n with
    | none => rw [h1] at h; simp at h
    | some v =>
      rw [h1] at h
      cases h2 : getTuple m ns with
      | none => rw [h2] at h; simp at h
      | some vs' =>
        rw [h2] at h
        simp only [Option.some_inj] at h
        subst h
        rw [setSeq_cons, setRaw_id m n v h1, ih vs' h2]

/-- C5 counterexample: reading the interpolationFactor composite of a
fresh state gives the pair (4, 4); assigning that pair back broadcasts
the whole tuple into both underlying scalar fields, so set(get()) is
not idempotent for this property. -/
theorem C5_cex_broadcast_setter :
    getAttr (initMeta 0) "interpolationFactor" = some (.tuple [.int 4, .int 4]) ∧
    pySetattr fsEmpty (initMeta 0) "interpolationFactor" (.tuple [.int 4, .int 4]) =
      ([], .ok (setBoth (initMeta 0) "interpolationFactorX" "interpolationFactorY"
        (.tuple [.int 4, .int 4]))) ∧
    lookupA (setBoth (initMeta 0) "interpolationFactorX" "interpolationFactorY"
      (.tuple [.int 4, .int 4])) "interpolationFactorX" =
        some (.tuple [.int 4, .int 4]) ∧
    lookupA (initMeta 0) "interpolationFactorX" = some (.int 4) ∧
    some (PyVal.tuple [.int 4, .int 4]) ≠ some (PyVal.int 4) := by
  refine ⟨rfl, rfl, rfl, rfl, ?_⟩
  simp

/-- C5 amended: set(get()) is the identity for the six indexing
composite properties (cellDim, tile, scanWindowX, scanWindowY,
scanWindowX_r, scanWindowY_r) whenever the underlying fields are
readable; setting tile to (2,3,1) then reading tile returns (2,3,1)
with tileX=2, tileY=3, tileZ=1.  The four broadcast composites
(interpolationFactor, realspacePixelSize, probeStep, probetilt) instead
store the whole read tuple into each underlying scalar field. -/
theorem C5_amended_indexed_roundtrip :
    (∀ (p : String) (ns : List String) (fs : FS) (m : Meta) (vs : List PyVal),
      (p, ns) ∈ indexProps → getAttr m p = some (.tuple vs) →
      pySetattr fs m p (.tuple vs) = ([], .ok m)) ∧
    (pySetattr fsEmpty (initMeta 0) "tile" (.tuple [.int 2, .int 3, .int 1]) =
      ([], .ok (setRaw (setRaw (setRaw (initMeta 0) "tileX" (.int 2))
        "tileY" (.int 3)) "tileZ" (.int 1))) ∧
     getAttr (setRaw (setRaw (setRaw (initMeta 0) "tileX" (.int 2))
        "tileY" (.int 3)) "tileZ" (.int 1)) "tile" =
       some (.tuple [.int 2, .int 3, .int 1]) ∧
     lookupA (setRaw (setRaw (setRaw (initMeta 0) "tileX" (.int 2))
        "tileY" (.int 3)) "tileZ" (.int 1)) "tileX" = some (.int 2) ∧
     lookupA (setRaw (setRaw (setRaw (initMeta 0) "tileX" (.int 2))
        "tileY" (.int 3)) "tileZ" (.int 1)) "tileY" = some (.int 3) ∧
     lookupA (setRaw (setRaw (setRaw (initMeta 0) "tileX" (.int 2))
        "tileY" (.int 3)) "tileZ" (.int 1)) "tileZ" = some (.int 1)) := by
  constructor
  · intro p ns fs m vs hmem hget
    obtain ⟨h1, h2, h3, h4⟩ := indexProps_dispatch (p, ns) hmem
    rw [getAttr, if_neg h1, h4] at hget
    dsimp only at hget
    have hgt : getTuple m ns = some vs := by
      cases hg : getTuple m ns with
      | none => rw [hg] at hget; simp at hget
      | some ws =>
        rw [hg] at hget
        simp only [Option.map_some', Option.some_inj] at hget
        cases hget
        rfl
    have hlen : vs.length = ns.length := getTuple_length m ns vs hgt
    have := (C10_indexed_setter_arity p ns fs m vs hmem).1 (by omega)
    rw [this, setSeq_id_of_getTuple m ns vs hgt]
  · exact ⟨rfl, rfl, rfl, rfl, rfl⟩

/-- C5 witness: set(get()) at the cellDim property of a fresh state. -/
theorem C5_witness :
    pySetattr fsEmpty (initMeta 0) "cellDim"
      (.tuple [.float (.dec ⟨200, 1⟩), .float (.dec ⟨200, 1⟩),
        .float (.dec ⟨200, 1⟩)]) = ([], .ok (initMeta 0)) :=
  C5_amended_indexed_roundtrip.1 "cellDim" ["cellDimX", "cellDimY", "cellDimZ"]
    fsEmpty (initMeta 0)
    [.float (.dec ⟨200, 1⟩), .float (.dec ⟨200, 1⟩), .float (.dec ⟨200, 1⟩)]
    (by decide) rfl

/-- C1: on a freshly constructed Metadata (no overrides, any random
seed), reading the filenameAtoms property raises AttributeError rather
than returning the default empty string: the __init__ line
self.filenameAtoms = "" routes through the property setter, whose
empty-string guard skips storing _filenameAtoms altogether.  Every
other registered field is readable on the fresh instance (and holds
exactly the value the default-assignment block stores, since the fresh
state is that assignment list). -/
theorem C1_fresh_filenameAtoms_raises (seed : Int) :
    getAttr (initMeta seed) "filenameAtoms" = none ∧
    getAttr (initMeta seed) "filenameAtoms" ≠ some (.str "") ∧
    "filenameAtoms" ∈ Metadata.fields ∧
    (Metadata.fields.all (fun f =>
      f == "filenameAtoms" || (getAttr (initMeta seed) f).isSome)) = true := by
  refine ⟨rfl, ?_, by decide, rfl⟩
  intro h
  rw [show getAttr (initMeta seed) "filenameAtoms" = none from rfl] at h
  exact Option.noConfusion h

/-- C3: readParameters on a file that fails to open prints the
diagnostic but then raises NameError with the state untouched, because
the except arm lacks the return that _setCellDims has, so the following
inf.readline() hits the unbound local. -/
theorem C3_read_missing_file_raises (fs : FS) (m : Meta) (filename : String)
    (h : fs filename = none) :
    readParameters fs m filename =
      (["Could not open parameter file " ++ filename], .error (.nameError, m)) := by
  simp [readParameters, h]

/-- C3 witness at a concrete empty file system. -/
theorem C3_witness :
    readParameters fsEmpty (initMeta 0) "params.txt" =
      (["Could not open parameter file params.txt"], .error (.nameError, initMeta 0)) :=
  C3_read_missing_file_raises fsEmpty (initMeta 0) "params.txt" rfl

/-- C7: setting filenameAtoms to a non-empty path whose file opens and
whose second line splits into three float tokens stores the path in the
private slot and assigns the three parsed floats to cellDimX, cellDimY,
cellDimZ in that order; setting it to the empty string is a complete
no-op with no file access. -/
theorem C7_atoms_file_side_effect :
    (∀ (fs : FS) (m : Meta) (path : String) (content : List Char)
      (t1 t2 t3 : List Char) (a b c : PyFloat),
      path ≠ "" → fs path = some content →
      splitWs (((pyLines content).drop 1).headD []) = [t1, t2, t3] →
      parseFloatC t1 = some a → parseFloatC t2 = some b →
      parseFloatC t3 = some c →
      pySetattr fs m "filenameAtoms" (.str path) =
        ([], .ok (setRaw (setRaw (setRaw (setRaw m "_filenameAtoms" (.str path))
          "cellDimX" (.float a)) "cellDimY" (.float b)) "cellDimZ" (.float c)))) ∧
    (∀ (fs : FS) (m : Meta),
      pySetattr fs m "filenameAtoms" (.str "") = ([], .ok m)) := by
  constructor
  · intro fs m path content t1 t2 t3 a b c hpath hfs hsplit hp1 hp2 hp3
    simp only [pySetattr, eq_self_iff_true, if_true, filenameAtomsSet,
      if_neg hpath, setCellDims, hfs, hsplit, parseFloatTokens, hp1, hp2, hp3]
  · intro fs m
    simp [pySetattr, filenameAtomsSet]

/-- C7 witness: a concrete structure file with second line
"10.0 20.0 30.5" and the empty-string no-op. -/
theorem C7_witness :
    pySetattr atomsFS (initMeta 0) "filenameAtoms" (.str "atoms.xyz") =
      ([], .ok (setRaw (setRaw (setRaw (setRaw (initMeta 0)
        "_filenameAtoms" (.str "atoms.xyz"))
        "cellDimX" (.float (.dec ⟨100, 1⟩)))
        "cellDimY" (.float (.dec ⟨200, 1⟩)))
        "cellDimZ" (.float (.dec ⟨305, 1⟩)))) ∧
    pySetattr atomsFS (initMeta 0) "filenameAtoms" (.str "") =
      ([], .ok (initMeta 0)) :=
  ⟨C7_atoms_file_side_effect.1 atomsFS (initMeta 0) "atoms.xyz"
      "comment line\n10.0 20.0 30.5\n".data
      "10.0".data "20.0".data "30.5".data _ _ _
      (by decide) rfl rfl rfl rfl rfl,
   C7_atoms_file_side_effect.2 atomsFS (initMeta 0)⟩

theorem getAttrList_spec (m : Meta) :
    ∀ fls : List String, (∀ f ∈ fls, (getAttr m f).isSome = true) →
      ∃ l, getAttrList m fls = some l ∧ l.length = fls.length ∧
        ∀ i (hi : i < l.length) (hi2 : i < fls.length),
          some (l.get ⟨i, hi⟩) = getAttr m (fls.get ⟨i, hi2⟩) := by
  intro fls
  induction fls with
  | nil =>
    intro _
    exact ⟨[], rfl, rfl, fun i hi _ => absurd hi (by simp)⟩
  | cons f rest ih =>
    intro hh
    obtain ⟨v, hv⟩ := Option.isSome_iff_exists.mp (hh f (by simp))
    obtain ⟨l', hl', hlen, hidx⟩ := ih (fun g hg => hh g (by simp [hg]))
    refine ⟨v :: l', ?_, by simp [hlen], ?_⟩
    · simp only [getAttrList, hv, hl']
    · intro i hi hi2
      cases i with
      | zero => simpa using hv.symm
      | succ j =>
        simp only [List.get_cons_succ]
        exact hidx j (by simpa using hi) (by simpa using hi2)

/-- C2 counterexample: on a fresh state go() raises AttributeError
while building the payload (the filenameAtoms read fails), so the
engine is never invoked; algorithm and transferMode were already
lower-cased in place (here they were already lower case). -/
theorem C2_cex_go_fresh :
    go (initMeta 0) = .error (.attributeError, initMeta 0) := rfl

/-- C2 amended: whenever algorithm and transferMode hold strings and
every canonical field is readable after the in-place lower-casing,
go() lower-cases the two fields first and hands the engine exactly one
flat list whose i-th element is the value of the i-th canonical field
of the lowered state. -/
theorem C2_go_payload_when_readable (m : Meta) (sa st : String)
    (h1 : lookupA m "algorithm" = some (.str sa))
    (h2 : lookupA m "transferMode" = some (.str st))
    (h3 : (Metadata.fields.all (fun f =>
      (getAttr (setRaw (setRaw m "algorithm" (.str (lowerStr sa)))
        "transferMode" (.str (lowerStr st))) f).isSome)) = true) :
    ∃ l, go m = .ok (setRaw (setRaw m "algorithm" (.str (lowerStr sa)))
        "transferMode" (.str (lowerStr st)), l) ∧
      l.length = Metadata.fields.length ∧
      ∀ i (hi : i < l.length) (hi2 : i < Metadata.fields.length),
        some (l.get ⟨i, hi⟩) =
          getAttr (setRaw (setRaw m "algorithm" (.str (lowerStr sa)))
            "transferMode" (.str (lowerStr st))) (Metadata.fields.get ⟨i, hi2⟩) := by
  have hl1 : lowerAttr m "algorithm" =
      .ok (setRaw m "algorithm" (.str (lowerStr sa))) := by
    simp [lowerAttr, h1]
  have h2b : lookupA (setRaw m "algorithm" (.str (lowerStr sa))) "transferMode" =
      some (.str st) := by
    rw [lookupA_setRaw_ne _ _ _ _ (by decide), h2]
  have hl2 : lowerAttr (setRaw m "algorithm" (.str (lowerStr sa))) "transferMode" =
      .ok (setRaw (setRaw m "algorithm" (.str (lowerStr sa)))
        "transferMode" (.str (lowerStr st))) := by
    simp [lowerAttr, h2b]
  simp only [List.all_eq_true] at h3
  obtain ⟨l, hl, hlen, hidx⟩ := getAttrList_spec _ Metadata.fields h3
  refine ⟨l, ?_, hlen, hidx⟩
  simp only [go, hl1, hl2, hl]

/-- C2 witness: a fresh state whose private _filenameAtoms slot is
populated is fully readable, and go() hands over the canonical list. -/
theorem C2_witness :
    ∃ l, go (setRaw (initMeta 0) "_filenameAtoms" (.str "a.xyz")) =
      .ok (setRaw (setRaw (setRaw (initMeta 0) "_filenameAtoms" (.str "a.xyz"))
        "algorithm" (.str (lowerStr "prism")))
        "transferMode" (.str (lowerStr "auto")), l) ∧
      l.length = Metadata.fields.length ∧
      ∀ i (hi : i < l.length) (hi2 : i < Metadata.fields.length),
        some (l.get ⟨i, hi⟩) =
          getAttr (setRaw (setRaw (setRaw (initMeta 0) "_filenameAtoms" (.str "a.xyz"))
            "algorithm" (.str (lowerStr "prism")))
            "transferMode" (.str (lowerStr "auto"))) (Metadata.fields.get ⟨i, hi2⟩) :=
  C2_go_payload_when_readable (setRaw (initMeta 0) "_filenameAtoms" (.str "a.xyz"))
    "prism" "auto" rfl rfl rfl

theorem indexedSet_ok_keys :
    ∀ (ns : List String) (m : Meta) (v : PyVal) (i : Nat) (m1 : Meta),
      indexedSet m ns v i = .ok m1 →
      ∀ n ∈ keysOf m1, n ∈ keysOf m ∨ n ∈ ns := by
  intro ns
  induction ns with
  | nil =>
    intro m v i m1 h n hn
    simp only [indexedSet, Except.ok.injEq] at h
    subst h
    exact Or.inl hn
  | cons g rest ih =>
    intro m v i m1 h n hn
    simp only [indexedSet] at h
    cases hx : pyIndex v i with
    | none => rw [hx] at h; exact absurd h (by simp)
    | some x =>
      rw [hx] at h
      rcases ih (setRaw m g x) v (i + 1) m1 h n hn with hin | hin
      · rcases (mem_keysOf_setRaw m g n x).mp hin with he | hin2
        · exact Or.inr (by simp [he])
        · exact Or.inl hin2
      · exact Or.inr (by simp [hin])

theorem pySetattr_ok_keys (fs : FS) (m : Meta) (name : String) (v : PyVal)
    (lg : List String) (m1 : Meta)
    (h : pySetattr fs m name v = (lg, .ok m1)) :
    ∀ n ∈ keysOf m1, n ∈ keysOf m ∨ n ∈ touchedNames name := by
  intro n hn
  by_cases hf : name = "filenameAtoms"
  · subst hf
    rw [pySetattr, if_pos rfl] at h
    have htn : touchedNames "filenameAtoms" =
        ["_filenameAtoms", "cellDimX", "cellDimY", "cellDimZ"] := by decide
    rw [htn]
    cases v with
    | str s =>
      by_cases hs : s = ""
      · subst hs
        simp only [filenameAtomsSet, eq_self_iff_true, if_true, Prod.mk.injEq,
          Except.ok.injEq] at h
        rw [← h.2] at hn
        exact Or.inl hn
      · simp only [filenameAtomsSet, if_neg hs, setCellDims] at h
        cases hfs : fs s with
        | none =>
          rw [hfs] at h
          simp only [Prod.mk.injEq, Except.ok.injEq] at h
          rw [← h.2] at hn
          rcases (mem_keysOf_setRaw _ _ _ _).mp hn with he | hin
          · exact Or.inr (by simp [he])
          · exact Or.inl hin
        | some content =>
          rw [hfs] at h
          dsimp only at h
          cases hp : parseFloatTokens (splitWs (((pyLines content).drop 1).headD [])) with
          | none => rw [hp] at h; exact absurd h (by simp)
          | some fls =>
            rw [hp] at h
            match fls with
            | [] => exact absurd h (by simp)
            | [a] => exact absurd h (by simp)
            | [a, b] => exact absurd h (by simp)
            | [a, b, c] =>
              simp only [Prod.mk.injEq, Except.ok.injEq] at h
              rw [← h.2] at hn
              rcases (mem_keysOf_setRaw _ _ _ _).mp hn with he | hin
              · exact Or.inr (by simp [he])
              rcases (mem_keysOf_setRaw _ _ _ _).mp hin with he | hin2
              · exact Or.inr (by simp [he])
              rcases (mem_keysOf_setRaw _ _ _ _).mp hin2 with he | hin3
              · exact Or.inr (by simp [he])
              rcases (mem_keysOf_setRaw _ _ _ _).mp hin3 with he | hin4
              · exact Or.inr (by simp [he])
              · exact Or.inl hin4
            | a :: b :: c :: d :: rest => exact absurd h (by simp)
    | int k => exact absurd h (by simp [filenameAtomsSet])
    | float g => exact absurd h (by simp [filenameAtomsSet])
    | bool b => exact absurd h (by simp [filenameAtomsSet])
    | tuple vs => exact absurd h (by simp [filenameAtomsSet])
  · rw [pySetattr, if_neg hf] at h
    cases hb : broadcastProps.lookup name with
    | some p =>
      rw [hb] at h
      dsimp only at h
      simp only [Prod.mk.injEq, Except.ok.injEq] at h
      rw [← h.2] at hn
      have htn : touchedNames name = [p.1, p.2] := by
        simp [touchedNames, hf, hb]
      rw [htn]
      rcases (mem_keysOf_setRaw _ _ _ _).mp hn with he | hin
      · exact Or.inr (by simp [he])
      rcases (mem_keysOf_setRaw _ _ _ _).mp hin with he | hin2
      · exact Or.inr (by simp [he])
      · exact Or.inl hin2
    | none =>
      rw [hb] at h
      dsimp only at h
      cases hi : indexProps.lookup name with
      | some ns =>
        rw [hi] at h
        dsimp only at h
        have htn : touchedNames name = ns := by
          simp [touchedNames, hf, hb, hi]
        rw [htn]
        cases hr : indexedSet m ns v 0 with
        | error e => rw [hr] at h; exact absurd h (by simp)
        | ok m2 =>
          rw [hr] at h
          simp only [Prod.mk.injEq, Except.ok.injEq] at h
          rw [← h.2] at hn
          exact indexedSet_ok_keys ns m v 0 m2 hr n hn
      | none =>
        rw [hi] at h
        dsimp only at h
        simp only [Prod.mk.injEq, Except.ok.injEq] at h
        rw [← h.2] at hn
        have htn : touchedNames name = [name] := by
          simp [touchedNames, hf, hb, hi]
        rw [htn]
        rcases (mem_keysOf_setRaw _ _ _ _).mp hn with he | hin
        · exact Or.inr (by simp [he])
        · exact Or.inl hin

theorem applyKwargs_filter (fs : FS) :
    ∀ (kwargs : List (String × PyVal)) (m : Meta),
      (applyKwargs fs m kwargs).2 =
        (applyKwargs fs m
          (kwargs.filter (fun kv => Metadata.fields.contains kv.1))).2 := by
  intro kwargs
  induction kwargs with
  | nil => intro m; rfl
  | cons kv rest ih =>
    intro m
    rcases kv with ⟨k, v⟩
    by_cases hk : Metadata.fields.contains k = true
    · have hmem : k ∈ Metadata.fields := by simpa using hk
      rw [show List.filter (fun kv => Metadata.fields.contains kv.1)
          ((k, v) :: rest) = (k, v) ::
            rest.filter (fun kv => Metadata.fields.contains kv.1) from by
        simp [List.filter_cons, hmem]]
      simp only [applyKwargs, hk, if_true]
      cases hset : pySetattr fs m k v with
      | mk lg r =>
        cases r with
        | ok m1 =>
          dsimp only
          exact ih m1
        | error e => rfl
    · have hk2 : Metadata.fields.contains k = false := by simpa using hk
      have hmem : k ∉ Metadata.fields := by simpa using hk2
      rw [show List.filter (fun kv => Metadata.fields.contains kv.1)
          ((k, v) :: rest) =
            rest.filter (fun kv => Metadata.fields.contains kv.1) from by
        simp [List.filter_cons, hmem]]
      simp only [applyKwargs, hk2, Bool.false_eq_true, if_false]
      exact ih m

theorem applyKwargs_warn (fs : FS) :
    ∀ (kwargs : List (String × PyVal)) (m : Meta) (m1 : Meta),
      (applyKwargs fs m kwargs).2 = .ok m1 →
      ∀ k v, (k, v) ∈ kwargs → Metadata.fields.contains k = false →
        warnMsg k ∈ (applyKwargs fs m kwargs).1 := by
  intro kwargs
  induction kwargs with
  | nil =>
    intro m m1 _ k v hm
    simp at hm
  | cons kv rest ih =>
    intro m m1 hok k v hm hk
    rcases kv with ⟨k', v'⟩
    by_cases hk' : Metadata.fields.contains k' = true
    · simp only [applyKwargs, hk', if_true] at hok ⊢
      cases hset : pySetattr fs m k' v' with
      | mk lg r =>
        rw [hset] at hok
        cases r with
        | ok m2 =>
          dsimp only at hok ⊢
          have hm2 : (k, v) ∈ rest := by
            rcases List.mem_cons.mp hm with he | hm2
            · exfalso
              injection he with he1 _
              rw [he1] at hk
              rw [hk] at hk'
              exact Bool.false_ne_true hk'
            · exact hm2
          exact List.mem_append_right lg (ih m2 m1 hok k v hm2 hk)
        | error e => dsimp only at hok; exact absurd hok (by simp)
    · have hk2 : Metadata.fields.contains k' = false := by simpa using hk'
      simp only [applyKwargs, hk2, Bool.false_eq_true, if_false] at hok ⊢
      rcases List.mem_cons.mp hm with he | hm2
      · injection he with he1 _
        rw [he1]
        exact List.mem_cons_self _ _
      · exact List.mem_cons_of_mem _ (ih m m1 hok k v hm2 hk)

theorem applyKwargs_keys (fs : FS) :
    ∀ (kwargs : List (String × PyVal)) (m : Meta) (m1 : Meta),
      (applyKwargs fs m kwargs).2 = .ok m1 →
      ∀ n ∈ keysOf m1, n ∈ keysOf m ∨
        ∃ kv ∈ kwargs, Metadata.fields.contains kv.1 = true ∧
          n ∈ touchedNames kv.1 := by
  intro kwargs
  induction kwargs with
  | nil =>
    intro m m1 hok n hn
    simp only [applyKwargs, Except.ok.injEq] at hok
    subst hok
    exact Or.inl hn
  | cons kv rest ih =>
    intro m m1 hok n hn
    rcases kv with ⟨k, v⟩
    by_cases hk : Metadata.fields.contains k = true
    · simp only [applyKwargs, hk, if_true] at hok
      cases hset : pySetattr fs m k v with
      | mk lg r =>
        rw [hset] at hok
        cases r with
        | ok m2 =>
          dsimp only at hok
          rcases ih m2 m1 hok n hn with hin | ⟨kv2, hkv2, hc2, ht2⟩
          · rcases pySetattr_ok_keys fs m k v lg m2 hset n hin with hin2 | ht
            · exact Or.inl hin2
            · exact Or.inr ⟨(k, v), by simp, hk, ht⟩
          · exact Or.inr ⟨kv2, by simp [hkv2], hc2, ht2⟩
        | error e => dsimp only at hok ; exact absurd hok (by simp)
    · have hk2 : Metadata.fields.contains k = false := by simpa using hk
      simp only [applyKwargs, hk2, Bool.false_eq_true, if_false] at hok
      rcases ih m m1 hok n hn with hin | ⟨kv2, hkv2, hc2, ht2⟩
      · exact Or.inl hin
      · exact Or.inr ⟨kv2, by simp [hkv2], hc2, ht2⟩

/-- C9: construction state and outcome depend only on the registered
keys (unknown keys never make construction fail and never change the
state); on success each unknown key has produced its diagnostic, and
the resulting instance carries no attribute slot beyond those of the
default block plus the slots touched by the registered overrides. -/
theorem C9_unknown_keys_tolerated (fs : FS) (seed : Int)
    (kwargs : List (String × PyVal)) :
    (metadataInit fs seed kwargs).2 =
      (metadataInit fs seed
        (kwargs.filter (fun kv => Metadata.fields.contains kv.1))).2 ∧
    ((∀ kv ∈ kwargs, Metadata.fields.contains kv.1 = false) →
      (metadataInit fs seed kwargs).2 = .ok (initMeta seed)) ∧
    (∀ m1, (metadataInit fs seed kwargs).2 = .ok m1 →
      (∀ k v, (k, v) ∈ kwargs → Metadata.fields.contains k = false →
        warnMsg k ∈ (metadataInit fs seed kwargs).1) ∧
      (∀ n ∈ keysOf m1, n ∈ keysOf (initMeta seed) ∨
        ∃ kv ∈ kwargs, Metadata.fields.contains kv.1 = true ∧
          n ∈ touchedNames kv.1)) := by
  refine ⟨applyKwargs_filter fs kwargs (initMeta seed), ?_, ?_⟩
  · intro hall
    have hnil : kwargs.filter (fun kv => Metadata.fields.contains kv.1) = [] := by
      rw [List.filter_eq_nil_iff]
      intro kv hkv
      have := hall kv hkv
      simpa using this
    rw [metadataInit, applyKwargs_filter fs kwargs (initMeta seed), hnil]
    rfl
  · intro m1 hok
    exact ⟨fun k v hm hk => applyKwargs_warn fs kwargs (initMeta seed) m1 hok k v hm hk,
      fun n hn => applyKwargs_keys fs kwargs (initMeta seed) m1 hok n hn⟩

/-- C9 witness: one unknown key warns, is not stored, and leaves the
defaults untouched. -/
theorem C9_witness :
    (metadataInit fsEmpty 0 [("bogus", .int 1)]).2 = .ok (initMeta 0) ∧
    warnMsg "bogus" ∈ (metadataInit fsEmpty 0 [("bogus", .int 1)]).1 ∧
    lookupA (initMeta 0) "bogus" = none := by
  have h := C9_unknown_keys_tolerated fsEmpty 0 [("bogus", .int 1)]
  have hall : ∀ kv ∈ [(("bogus" : String), PyVal.int 1)],
      Metadata.fields.contains kv.1 = false := by
    intro kv hkv
    rw [List.mem_singleton] at hkv
    subst hkv
    decide
  have hok := h.2.1 hall
  refine ⟨hok, ?_, rfl⟩
  exact (h.2.2 (initMeta 0) hok).1 "bogus" (.int 1) (List.mem_singleton.mpr rfl)
    (by decide)

/-- C6: a serialized bool-classified field written as False reads back
as True, because the persisted token "False" plus the kept newline is a
nonempty string and bool() of a nonempty string is True. -/
theorem C6_bool_false_reads_true (fs : FS) (A B : Meta) (f : String)
    (hok : serialOK A = true) (hf : f ∈ serializedFields)
    (hstr : Metadata.str_fields.contains f = false)
    (hint : Metadata.int_fields.contains f = false)
    (hfl : Metadata.float_fields.contains f = false)
    (hv : getAttr A f = some (.bool false)) :
    ∃ content, writeParameters A = .ok content ∧
      processLines fs B (pyLines content) =
        ([], .ok (rtApply A Metadata.fields B)) ∧
      lookupA (rtApply A Metadata.fields B) f = some (.bool true) := by
  obtain ⟨content, hw, hr⟩ := write_read_ok fs A B hok
  refine ⟨content, hw, hr, ?_⟩
  have hmem := List.mem_filter.mp hf
  rw [rtApply_lookup_mem A Metadata.fields B f fields_nodup hmem.1 hmem.2 _ hv]
  have hm1 : f ∉ Metadata.str_fields := by simpa using hstr
  have hm2 : f ∉ Metadata.int_fields := by simpa using hint
  have hm3 : f ∉ Metadata.float_fields := by simpa using hfl
  simp [rtValue, hm1, hm2, hm3]

/-- C6 witness: crop4DOutput is False on a fresh state and True after a
write/read round trip. -/
theorem C6_witness :
    ∃ content, writeParameters (initMeta 0) = .ok content ∧
      processLines fsEmpty (initMeta 1) (pyLines content) =
        ([], .ok (rtApply (initMeta 0) Metadata.fields (initMeta 1))) ∧
      lookupA (rtApply (initMeta 0) Metadata.fields (initMeta 1)) "crop4DOutput" =
        some (.bool true) :=
  C6_bool_false_reads_true fsEmpty (initMeta 0) (initMeta 1) "crop4DOutput"
    rfl (by decide) (by decide) (by decide) (by decide) rfl

/-- C4 counterexample: a fresh state stores algorithm = "prism"; after
writeParameters and readParameters the algorithm field holds
"prism" followed by a newline, because readline() keeps the line
terminator and the str branch stores the raw text verbatim, so string
fields do not round-trip character-for-character. -/
theorem C4_cex_string_gains_newline :
    lookupA (initMeta 0) "algorithm" = some (.str "prism") ∧
    (match (readParameters (fsWith (writtenContent (initMeta 0)))
        (initMeta 1) "p.txt").2 with
     | .ok m1 => lookupA m1 "algorithm" = some (.str "prism\n")
     | .error _ => False) ∧
    ("prism\n" : String) ≠ "prism" := by
  refine ⟨rfl, ?_, by decide⟩
  rfl

theorem int_fields_not_str :
    ∀ f ∈ Metadata.int_fields, f ∉ Metadata.str_fields := by decide

theorem float_fields_not_str :
    ∀ f ∈ Metadata.float_fields, f ∉ Metadata.str_fields := by decide

theorem float_fields_not_int :
    ∀ f ∈ Metadata.float_fields, f ∉ Metadata.int_fields := by decide

theorem decNorm_numEq (d : Dec) : d.numEq (decNorm d) := by
  simp only [Dec.numEq, decNorm, Int.ofNat_eq_natCast]
  have hsplit : 10 ^ (max 1 d.exp) = 10 ^ (max 1 d.exp - d.exp) * 10 ^ d.exp := by
    rw [← pow_add]
    congr 1
    omega
  rw [hsplit]
  push_cast
  ring

/-- C4 amended: write then read restores every serialized int field
exactly, every serialized float field to the same numeric value (nan
and signed infinity round-trip to themselves; a stored Python int in a
float slot reads back as the equal float), and every serialized string
field to the written text with one newline appended (so the string
part of the original claim fails by exactly that trailing newline).
The hypotheses require the serialized fields to be present with values
consistent with their type class and string values free of newlines
and of the " = " separator. -/
theorem C4_amended_type_fidelity (fs : FS) (A B : Meta)
    (hok : serialOK A = true) :
    ∃ content, writeParameters A = .ok content ∧
      processLines fs B (pyLines content) =
        ([], .ok (rtApply A Metadata.fields B)) ∧
      (∀ f ∈ serializedFields, ∀ v, getAttr A f = some v →
        lookupA (rtApply A Metadata.fields B) f = some (rtValue f v)) ∧
      (∀ f ∈ serializedFields, f ∈ Metadata.int_fields →
        ∀ v, getAttr A f = some v →
        lookupA (rtApply A Metadata.fields B) f = some v) ∧
      (∀ f ∈ serializedFields, f ∈ Metadata.float_fields →
        ∀ v, getAttr A f = some v →
        ∃ w, lookupA (rtApply A Metadata.fields B) f = some w ∧ pyNumEq v w) ∧
      (∀ f ∈ serializedFields, f ∈ Metadata.str_fields →
        ∀ s, getAttr A f = some (.str s) →
        lookupA (rtApply A Metadata.fields B) f = some (.str (s ++ "\n"))) := by
  obtain ⟨content, hw, hr⟩ := write_read_ok fs A B hok
  have hbase : ∀ f ∈ serializedFields, ∀ v, getAttr A f = some v →
      lookupA (rtApply A Metadata.fields B) f = some (rtValue f v) := by
    intro f hf v hv
    have hmem := List.mem_filter.mp hf
    exact rtApply_lookup_mem A Metadata.fields B f fields_nodup hmem.1 hmem.2 v hv
  have hsafe : ∀ f ∈ serializedFields, ∀ v, getAttr A f = some v →
      serialSafeB f v = true := by
    intro f hf v hv
    obtain ⟨w, hw2, hs⟩ := serialOK_spec A hok f hf
    rw [hv] at hw2
    injection hw2 with hw3
    exact hw3 ▸ hs
  refine ⟨content, hw, hr, hbase, ?_, ?_, ?_⟩
  · intro f hf hfi v hv
    rw [hbase f hf v hv]
    have hm1 : f ∉ Metadata.str_fields := int_fields_not_str f hfi
    have hm2 : f ∈ Metadata.int_fields := hfi
    simp [rtValue, hm1, hm2]
  · intro f hf hff v hv
    have hm1 : f ∉ Metadata.str_fields := float_fields_not_str f hff
    have hm2 : f ∉ Metadata.int_fields := float_fields_not_int f hff
    refine ⟨rtValue f v, hbase f hf v hv, ?_⟩
    have hs := hsafe f hf v hv
    simp only [serialSafeB] at hs
    rw [if_neg (by simpa using hm1), if_neg (by simpa using hm2),
      if_pos (by simpa using hff)] at hs
    cases v with
    | int n => simp [rtValue, pyNumEq, hm1, hm2, hff]
    | float g =>
      cases g with
      | nan => simp [rtValue, pyNumEq, hm1, hm2, hff]
      | inf b => simp [rtValue, pyNumEq, hm1, hm2, hff]
      | dec d =>
        simp [rtValue, pyNumEq, hm1, hm2, hff]
        exact decNorm_numEq d
    | str s => simp at hs
    | bool b => simp at hs
    | tuple vs => simp at hs
  · intro f hf hfs s hv
    rw [hbase f hf _ hv]
    have hdata : (s ++ "\n").data = s.data ++ ['\n'] := by
      rw [String.data_append]
    have hstr : String.mk (pyStrChars (.str s) ++ ['\n']) = s ++ "\n" := by
      simp only [pyStrChars]
      rw [← hdata]
    have hc : Metadata.str_fields.contains f = true := by simpa using hfs
    simp only [rtValue, hc, eq_self_iff_true, if_true]
    rw [hstr]

/-- C4 witness: round trip of a fresh state into another fresh state. -/
theorem C4_witness :
    ∃ content, writeParameters (initMeta 0) = .ok content ∧
      processLines fsEmpty (initMeta 1) (pyLines content) =
        ([], .ok (rtApply (initMeta 0) Metadata.fields (initMeta 1))) ∧
      (∀ f ∈ serializedFields, ∀ v, getAttr (initMeta 0) f = some v →
        lookupA (rtApply (initMeta 0) Metadata.fields (initMeta 1)) f =
          some (rtValue f v)) ∧
      (∀ f ∈ serializedFields, f ∈ Metadata.int_fields →
        ∀ v, getAttr (initMeta 0) f = some v →
        lookupA (rtApply (initMeta 0) Metadata.fields (initMeta 1)) f = some v) ∧
      (∀ f ∈ serializedFields, f ∈ Metadata.float_fields →
        ∀ v, getAttr (initMeta 0) f = some v →
        ∃ w, lookupA (rtApply (initMeta 0) Metadata.fields (initMeta 1)) f =
          some w ∧ pyNumEq v w) ∧
      (∀ f ∈ serializedFields, f ∈ Metadata.str_fields →
        ∀ s, getAttr (initMeta 0) f = some (.str s) →
        lookupA (rtApply (initMeta 0) Metadata.fields (initMeta 1)) f =
          some (.str (s ++ "\n"))) :=
  C4_amended_type_fidelity fsEmpty (initMeta 0) (initMeta 1) rfl

/-- C8 counterexample: a string value containing a newline followed by
a forged line lets writeParameters emit text that readParameters splits
into an extra line assigning the excluded field filenameOutput, so the
exclusion guarantee fails for such states. -/
theorem C8_cex_newline_injection :
    lookupA (initMeta 1) "filenameOutput" = some (.str "output.h5") ∧
    (match (readParameters (fsWith (writtenContent
        (setRaw (initMeta 0) "algorithm" (.str "x\nfilenameOutput = evil"))))
        (initMeta 1) "p.txt").2 with
     | .ok m1 => lookupA m1 "filenameOutput" = some (.bool true)
     | .error _ => False) ∧
    some (PyVal.bool true) ≠ some (PyVal.str "output.h5") := by
  refine ⟨rfl, ?_, by simp⟩
  rfl

theorem cleanName_no_space (f : String) (hc : cleanName f = true) :
    ∀ c ∈ f.data, c ≠ ' ' := by
  simp only [cleanName, List.all_eq_true, Bool.and_eq_true,
    Bool.not_eq_true', beq_eq_false_iff_ne] at hc
  exact fun c hcm => (hc c hcm).1

theorem parseLineFields_mkLine_field (f : String) (v : PyVal)
    (hc : cleanName f = true) :
    ∀ p, parseLineFields (mkLine f v) = some p → p.1 = f.data := by
  intro p hp
  rw [show mkLine f v = f.data ++ sepEq ++ (pyStrChars v ++ ['\n']) from by
      simp [mkLine],
    parseLineFields_line f _ (cleanName_no_space f hc)] at hp
  by_cases hw : noSep (pyStrChars v ++ ['\n']) = true
  · rw [if_pos hw] at hp
    cases hp
    rfl
  · rw [if_neg hw] at hp
    cases hp

theorem writeLines_lines_shape (A : Meta) :
    ∀ (fls : List String) (ls : List (List Char)),
      writeLinesAux A fls = .ok ls →
      ∀ l ∈ ls, ∃ f v, f ∈ fls ∧ includedInWrite f = true ∧
        getAttr A f = some v ∧ l = mkLine f v := by
  intro fls
  induction fls with
  | nil =>
    intro ls hok l hl
    simp only [writeLinesAux, Except.ok.injEq] at hok
    subst hok
    simp at hl
  | cons f rest ih =>
    intro ls hok l hl
    by_cases hinc : includedInWrite f = true
    · simp only [writeLinesAux, hinc, if_true] at hok
      cases hv : getAttr A f with
      | none => rw [hv] at hok; exact absurd hok (by simp)
      | some v =>
        rw [hv] at hok
        cases hrec : writeLinesAux A rest with
        | error e => rw [hrec] at hok; simp [Except.map] at hok
        | ok ls' =>
          rw [hrec] at hok
          simp only [Except.map, Except.ok.injEq] at hok
          subst hok
          rcases List.mem_cons.mp hl with he | hm
          · exact ⟨f, v, by simp, hinc, hv, he⟩
          · obtain ⟨g, w, hg, hgi, hgv, hgl⟩ := ih ls' hrec l hm
            exact ⟨g, w, by simp [hg], hgi, hgv, hgl⟩
    · have hinc2 : includedInWrite f = false := by simpa using hinc
      simp only [writeLinesAux, hinc2, Bool.false_eq_true, if_false] at hok
      obtain ⟨g, w, hg, hgi, hgv, hgl⟩ := ih ls hok l hl
      exact ⟨g, w, by simp [hg], hgi, hgv, hgl⟩

theorem pyLines_joinChars_writeLines (A : Meta) :
    ∀ (fls : List String) (ls : List (List Char)),
      writeLinesAux A fls = .ok ls →
      (∀ f ∈ fls, includedInWrite f = true → cleanName f = true ∧
        ∀ v, getAttr A f = some v → noNl (pyStrChars v) = true) →
      pyLines (joinChars ls) = ls := by
  intro fls
  induction fls with
  | nil =>
    intro ls hok _
    simp only [writeLinesAux, Except.ok.injEq] at hok
    subst hok
    rfl
  | cons f rest ih =>
    intro ls hok hh
    by_cases hinc : includedInWrite f = true
    · obtain ⟨hc, hnl⟩ := hh f (by simp) hinc
      simp only [writeLinesAux, hinc, if_true] at hok
      cases hv : getAttr A f with
      | none => rw [hv] at hok; exact absurd hok (by simp)
      | some v =>
        rw [hv] at hok
        cases hrec : writeLinesAux A rest with
        | error e => rw [hrec] at hok; simp [Except.map] at hok
        | ok ls' =>
          rw [hrec] at hok
          simp only [Except.map, Except.ok.injEq] at hok
          subst hok
          have hjoin : joinChars (mkLine f v :: ls') = mkLine f v ++ joinChars ls' := rfl
          rw [hjoin, mkLine_core]
          have hnlc : '\n' ∉ (f.data ++ sepEq) ++ pyStrChars v :=
            mkLine_no_nl_core f v hc (hnl v hv)
          have hshape : (((f.data ++ sepEq) ++ pyStrChars v) ++ ['\n']) ++ joinChars ls' =
              ((f.data ++ sepEq) ++ pyStrChars v) ++ '\n' :: joinChars ls' := by
            simp
          rw [hshape, pyLines_line _ _ hnlc,
            ih ls' hrec (fun g hg hgi => hh g (by simp [hg]) hgi)]
    · have hinc2 : includedInWrite f = false := by simpa using hinc
      simp only [writeLinesAux, hinc2, Bool.false_eq_true, if_false] at hok
      exact ih ls hok (fun g hg hgi => hh g (by simp [hg]) hgi)

theorem readResultState_snd (a b : List String)
    (r : Except (PyErr × Meta) Meta) :
    readResultState (a, r) = readResultState (b, r) := rfl

theorem processLines_frame (fs : FS) :
    ∀ (lines : List (List Char)) (B : Meta) (n : String),
      (∀ l ∈ lines, ∀ p, parseLineFields l = some p →
        plainName (String.mk p.1) = true ∧
        includedInWrite (String.mk p.1) = true) →
      includedInWrite n = false →
      lookupA (readResultState (processLines fs B lines)) n = lookupA B n := by
  intro lines
  induction lines with
  | nil => intro B n _ _; rfl
  | cons line rest ih =>
    intro B n hlines hn
    cases line with
    | nil => rfl
    | cons c t =>
      cases hp : parseLineFields (c :: t) with
      | none =>
        have hrl : readLine fs B (c :: t) = ([], .error (.valueError, B)) := by
          simp only [readLine, hp]
        simp only [processLines, hrl]
        rfl
      | some p =>
        obtain ⟨hp1, hp2⟩ := hlines (c :: t) (by simp) p hp
        have hfne : String.mk p.1 ≠ n := by
          intro he
          rw [he, hn] at hp2
          exact Bool.false_ne_true hp2
        cases hc : lineCoerce (String.mk p.1) p.2 with
        | error e =>
          have hrl : readLine fs B (c :: t) = ([], .error (e, B)) := by
            simp only [readLine, hp]
            rw [hc]
          simp only [processLines, hrl]
          rfl
        | ok v =>
          have hrl : readLine fs B (c :: t) =
              ([], .ok (setRaw B (String.mk p.1) v)) := by
            simp only [readLine, hp]
            rw [hc]
            exact pySetattr_plain fs B (String.mk p.1) v hp1
          simp only [processLines, hrl]
          have hres : readResultState
              (([] : List String) ++ (processLines fs (setRaw B (String.mk p.1) v) rest).1,
                (processLines fs (setRaw B (String.mk p.1) v) rest).2) =
              readResultState (processLines fs (setRaw B (String.mk p.1) v) rest) := rfl
          rw [hres, ih (setRaw B (String.mk p.1) v) n
            (fun l hl => hlines l (by simp [hl])) hn,
            lookupA_setRaw_ne _ _ _ _ hfne]

/-- C8 amended: provided every serialized field is present and renders
without an embedded newline, reading back a written file never touches
any field whose name contains "save", "filename" or "cellDim"
(includedInWrite n = false is exactly that substring test), whether
the read completes or stops early at a malformed or mistyped line; a
string value containing a newline can forge extra lines and break the
guarantee, as the counterexample shows. -/
theorem C8_amended_excluded_frame (fs : FS) (A B : Meta) (filename : String)
    (content : List Char) (hw : writeParameters A = .ok content)
    (hfs : fs filename = some content) (hnl : writeNlSafe A = true) :
    ∀ n : String, includedInWrite n = false →
      lookupA (readResultState (readParameters fs B filename)) n =
        lookupA B n := by
  intro n hn
  have hnl2 : ∀ f ∈ serializedFields,
      ∀ v, getAttr A f = some v → noNl (pyStrChars v) = true := by
    simp only [writeNlSafe, List.all_eq_true] at hnl
    intro f hf v hv
    have h2 := hnl f hf
    rw [hv] at h2
    exact h2
  obtain ⟨ls, hls, hcontent⟩ : ∃ ls, writeLines A = .ok ls ∧
      content = joinChars ls := by
    cases hwl : writeLines A with
    | error e => rw [writeParameters, hwl] at hw; exact absurd hw (by simp [Except.map])
    | ok ls =>
      rw [writeParameters, hwl] at hw
      simp only [Except.map, Except.ok.injEq] at hw
      exact ⟨ls, rfl, hw.symm⟩
  have hgood : ∀ f ∈ Metadata.fields, includedInWrite f = true →
      cleanName f = true ∧ ∀ v, getAttr A f = some v →
        noNl (pyStrChars v) = true := by
    intro f hf hinc
    have hfs2 : f ∈ serializedFields := List.mem_filter.mpr ⟨hf, hinc⟩
    exact ⟨(serialized_static f hfs2).2, hnl2 f hfs2⟩
  have hlines : pyLines content = ls := by
    rw [hcontent]
    exact pyLines_joinChars_writeLines A Metadata.fields ls hls hgood
  have hlgood : ∀ l ∈ ls, ∀ p, parseLineFields l = some p →
      plainName (String.mk p.1) = true ∧
      includedInWrite (String.mk p.1) = true := by
    intro l hl p hp
    obtain ⟨f, v, hf, hinc, hv, hml⟩ :=
      writeLines_lines_shape A Metadata.fields ls hls l hl
    have hfser : f ∈ serializedFields := List.mem_filter.mpr ⟨hf, hinc⟩
    have hcn : cleanName f = true := (serialized_static f hfser).2
    have hp1 : p.1 = f.data := by
      rw [hml] at hp
      exact parseLineFields_mkLine_field f v hcn p hp
    rw [hp1, string_mk_data]
    exact ⟨(serialized_static f hfser).1, hinc⟩
  rw [readParameters, hfs]
  dsimp only
  rw [hlines]
  exact processLines_frame fs ls B n hlgood hn

/-- C8 witness: a fresh state round-tripped into another fresh state
leaves the excluded field filenameOutput of the target untouched. -/
theorem C8_witness :
    lookupA (readResultState (readParameters
      (fsWith (writtenContent (initMeta 0))) (initMeta 1) "p.txt"))
      "filenameOutput" = lookupA (initMeta 1) "filenameOutput" :=
  C8_amended_excluded_frame (fsWith (writtenContent (initMeta 0)))
    (initMeta 0) (initMeta 1) "p.txt" (writtenContent (initMeta 0))
    rfl rfl rfl "filenameOutput" (by decide)
